import Mathlib

/-!
Shallow embedding of the asteroid-field layout engine of the portfolio
repository (source: src/src/components/HyperspeedTransition.tsx), together
with theorems settling the frozen claims about it.

Numbers of the JavaScript source are modelled as real numbers; the
functions are translated line by line from the source.  The per-body
random phase used by the silhouette generator is passed in as an explicit
seed parameter (the source draws it from Math.random once per body), and
the viewport quantities (window.innerWidth, container width and height)
are passed as explicit arguments.
-/

namespace AsteroidSim

/-- A point in the plane, modelling the object literal with fields x, y. -/
structure Pt where
  x : ℝ
  y : ℝ

instance : Inhabited Pt := ⟨⟨0, 0⟩⟩

/-- Minimum translation vector returned by the SAT test. -/
structure MTV where
  nx : ℝ
  ny : ℝ
  overlap : ℝ

/-- cross(o, a, b) from the source: z-component of (a-o) x (b-o). -/
def cross (o a b : Pt) : ℝ :=
  (a.x - o.x) * (b.y - o.y) - (a.y - o.y) * (b.x - o.x)

/-- The total preorder realised by the sort comparator
(a, b) => a.x === b.x ? a.y - b.y : a.x - b.x. -/
def ptLE (a b : Pt) : Prop :=
  a.x < b.x ∨ (a.x = b.x ∧ a.y ≤ b.y)

noncomputable instance : DecidableRel ptLE := fun a b => by
  unfold ptLE; infer_instance

/-- One execution of the while loop of the monotone chain: starting from a
stack (head = most recently pushed point), pop while the stack has at least
two points and cross(second, top, p) <= 0. -/
noncomputable def popWhile (p : Pt) : List Pt → List Pt
  | b :: a :: rest =>
      if cross a b p ≤ 0 then popWhile p (a :: rest) else b :: a :: rest
  | l => l

/-- Build one chain of the monotone-chain algorithm by folding the point
list through pop-then-push; the resulting list is reversed (head = last
pushed point). -/
noncomputable def chainOf (pts : List Pt) : List Pt :=
  pts.foldl (fun st q => q :: popWhile q st) []

/-- convexHull from the source (monotone chain).  Inputs of length at most
3 are returned unchanged.  The source sorts with Array.prototype.sort and
a lexicographic comparator; a stable sort is modelled by insertionSort.
The source pops the last element of each chain and concatenates
lower ++ upper; with the reversed chain representation this is
tail-then-reverse. -/
noncomputable def convexHull (pts : List Pt) : List Pt :=
  if pts.length ≤ 3 then pts
  else
    let p := List.insertionSort ptLE pts
    let lower := chainOf p
    let upper := chainOf p.reverse
    lower.tail.reverse ++ upper.tail.reverse

/-- Dot product of two points used as vectors. -/
def dot (a b : Pt) : ℝ := a.x * b.x + a.y * b.y

/-- projectPoly from the source: (min, max) of the dot products of the
polygon vertices with the axis.  The source reads poly[0] first; the empty
case (never reached by the program, whose polygons are nonempty) is given
the value (0, 0). -/
def projectPoly (poly : List Pt) (axis : Pt) : ℝ × ℝ :=
  match poly with
  | [] => (0, 0)
  | p :: rest =>
      rest.foldl (fun mm q => (min mm.1 (dot q axis), max mm.2 (dot q axis)))
        (dot p axis, dot p axis)

/-- normalize from the source; Math.hypot(x, y) || 1e-9 replaces a zero
length by ys 1e-9 before dividing. -/
noncomputable def normalize (v : Pt) : Pt :=
  let len := Real.sqrt (v.x ^ 2 + v.y ^ 2)
  let len1 := if len = 0 then 1e-9 else len
  ⟨v.x / len1, v.y / len1⟩

/-- The candidate axes contributed by one polygon: the normalized
perpendicular of every edge poly[i] -> poly[(i+1) % n]. -/
noncomputable def axesOf (poly : List Pt) : List Pt :=
  poly.zipWith (fun p1 p2 => normalize ⟨-(p2.y - p1.y), p2.x - p1.x⟩) (poly.rotate 1)

/-- The shared loop body of testAxesFrom in satMTV: walk the axis list,
returning none as soon as an axis has nonpositive projection overlap
(separated), otherwise tracking the axis of strictly smallest overlap.
The accumulator none models the initial bestOverlap = Infinity. -/
noncomputable def runAxes (A B : List Pt) : List Pt → Option (ℝ × Pt) → Option (Option (ℝ × Pt))
  | [], best => some best
  | axis :: rest, best =>
      let pA := projectPoly A axis
      let pB := projectPoly B axis
      let ov := min pA.2 pB.2 - max pA.1 pB.1
      if ov ≤ 0 then none
      else
        match best with
        | none => runAxes A B rest (some (ov, axis))
        | some (bo, bax) =>
            if ov < bo then runAxes A B rest (some (ov, axis))
            else runAxes A B rest (some (bo, bax))

/-- centroid from the source: arithmetic mean of the vertices. -/
noncomputable def centroid (poly : List Pt) : Pt :=
  ⟨(poly.map Pt.x).sum / poly.length, (poly.map Pt.y).sum / poly.length⟩

/-- satMTV from the source: run both polygons' axes (A's first, then B's,
with one shared best-overlap accumulator, exactly as the two
testAxesFrom calls do), and if no axis separates, orient the best axis
from the centroid of A towards the centroid of B. -/
noncomputable def satMTV (A B : List Pt) : Option MTV :=
  match runAxes A B (axesOf A ++ axesOf B) none with
  | none => none
  | some none => none
  | some (some (bo, bax)) =>
      let ac := centroid A
      let bc := centroid B
      let dir : Pt := ⟨bc.x - ac.x, bc.y - ac.y⟩
      let axis := if dot dir bax < 0 then Pt.mk (-bax.x) (-bax.y) else bax
      some ⟨axis.x, axis.y, bo⟩

/-- Per-body state of the simulation (interface Asteroid of the source;
the immutable project record is omitted, being irrelevant to the
dynamics). -/
structure Asteroid where
  x : ℝ
  y : ℝ
  size : ℝ
  rotation : ℝ
  driftX : ℝ
  driftY : ℝ
  rotationSpeed : ℝ
  vertices : List Pt
  r : ℝ

instance : Inhabited Asteroid := ⟨⟨0, 0, 0, 0, 0, 0, 0, [], 0⟩⟩

/-- LABEL_GAP constant of the source (pixels below the asteroid). -/
def LABEL_GAP : ℝ := 18

/-- getLabelDims: width and height of a label, 280 x 44 at the desktop
breakpoint (window.innerWidth >= 1024), 240 x 40 otherwise. -/
noncomputable def getLabelDims (innerWidth : ℝ) : ℝ × ℝ :=
  (if 1024 ≤ innerWidth then 280 else 240, if 1024 ≤ innerWidth then 44 else 40)

/-- Axis-aligned label rectangle (x, y = top-left corner). -/
structure LabelRect where
  x : ℝ
  y : ℝ
  w : ℝ
  h : ℝ

/-- getLabelRect from the source: the label rectangle derived from a body,
anchored W/2 left of the center and LABEL_GAP below the collision
radius. -/
noncomputable def getLabelRect (innerWidth : ℝ) (a : Asteroid) : LabelRect :=
  let wh := getLabelDims innerWidth
  ⟨a.x - wh.1 / 2, a.y + a.r + LABEL_GAP, wh.1, wh.2⟩

/-- asteroidWorldPoly from the source: rotate the silhouette by the body
rotation (degrees to radians), translate to the body position, append the
four world-space label corners, and take the convex hull. -/
noncomputable def asteroidWorldPoly (innerWidth : ℝ) (a : Asteroid) : List Pt :=
  let rad := a.rotation * Real.pi / 180
  let c := Real.cos rad
  let s := Real.sin rad
  let rock := a.vertices.map (fun v => Pt.mk (a.x + v.x * c - v.y * s) (a.y + v.x * s + v.y * c))
  let lr := getLabelRect innerWidth a
  let label : List Pt :=
    [⟨lr.x, lr.y⟩, ⟨lr.x + lr.w, lr.y⟩, ⟨lr.x + lr.w, lr.y + lr.h⟩, ⟨lr.x, lr.y + lr.h⟩]
  convexHull (rock ++ label)

/-- Left clamp bound of clampToBounds: padding + max(r, labelW / 2). -/
noncomputable def clampMinX (innerWidth : ℝ) (a : Asteroid) : ℝ :=
  40 + max a.r ((getLabelDims innerWidth).1 / 2)

/-- Right clamp bound of clampToBounds. -/
noncomputable def clampMaxX (innerWidth width : ℝ) (a : Asteroid) : ℝ :=
  width - 40 - max a.r ((getLabelDims innerWidth).1 / 2)

/-- Top clamp bound of clampToBounds: padding + r. -/
def clampMinY (a : Asteroid) : ℝ := 40 + a.r

/-- Bottom clamp bound of clampToBounds:
max(minY + 50, 0.72 * height - (r + LABEL_GAP + labelH)). -/
noncomputable def clampMaxY (innerWidth height : ℝ) (a : Asteroid) : ℝ :=
  max (clampMinY a + 50) (height * 0.72 - (a.r + LABEL_GAP + (getLabelDims innerWidth).2))

/-- clampToBounds from the source: reflect a body that violates a bound
back past the bound by its penetration plus EPS = 0.35, and set the
offending drift component pointing inward, scaled by REST = 0.98. -/
noncomputable def clampToBounds (innerWidth width height : ℝ) (a : Asteroid) : Asteroid :=
  let minX := clampMinX innerWidth a
  let maxX := clampMaxX innerWidth width a
  let minY := clampMinY a
  let maxY := clampMaxY innerWidth height a
  let a1 :=
    if a.x < minX then
      { a with x := minX + (minX - a.x) + 0.35, driftX := |a.driftX| * 0.98 }
    else if a.x > maxX then
      { a with x := maxX - (a.x - maxX) - 0.35, driftX := -|a.driftX| * 0.98 }
    else a
  if a1.y < minY then
    { a1 with y := minY + (minY - a1.y) + 0.35, driftY := |a1.driftY| * 0.98 }
  else if a1.y > maxY then
    { a1 with y := maxY - (a1.y - maxY) - 0.35, driftY := -|a1.driftY| * 0.98 }
  else a1

/-- The pair-correction step inside resolveOverlaps, applied when satMTV
reports an overlap: symmetric positional pushes of (overlap + SEP) * 0.5
along the normal, then, if the bodies are closing along the normal, a
restitution impulse (REST = 0.97) and a small tangential friction impulse
(FRICTION = 0.01), all applied equal and opposite. -/
noncomputable def applyPair (A B : Asteroid) (m : MTV) : Asteroid × Asteroid :=
  let nx := m.nx
  let ny := m.ny
  let push := (m.overlap + 0.25) * 0.5
  let A1 := { A with x := A.x - nx * push, y := A.y - ny * push }
  let B1 := { B with x := B.x + nx * push, y := B.y + ny * push }
  let rvx := B.driftX - A.driftX
  let rvy := B.driftY - A.driftY
  let relN := rvx * nx + rvy * ny
  if relN < 0 then
    let j := -(1 + 0.97) * relN * 0.5
    let A2 := { A1 with driftX := A1.driftX - nx * j, driftY := A1.driftY - ny * j }
    let B2 := { B1 with driftX := B1.driftX + nx * j, driftY := B1.driftY + ny * j }
    let tx := -ny
    let ty := nx
    let relT := rvx * tx + rvy * ty
    let jt := -relT * 0.01 * 0.5
    ({ A2 with driftX := A2.driftX - tx * jt, driftY := A2.driftY - ty * jt },
     { B2 with driftX := B2.driftX + tx * jt, driftY := B2.driftY + ty * jt })
  else (A1, B1)

/-- One (i, j) step of the pair loop of resolveOverlaps: test the two
merged world colliders with satMTV and, on overlap, write back the
corrected pair. -/
noncomputable def pairStep (innerWidth : ℝ) (l : List Asteroid) (i j : ℕ) : List Asteroid :=
  let A := l.getD i default
  let B := l.getD j default
  match satMTV (asteroidWorldPoly innerWidth A) (asteroidWorldPoly innerWidth B) with
  | none => l
  | some m =>
      let AB := applyPair A B m
      (l.set i AB.1).set j AB.2

/-- The (i, j) index pairs visited by the nested pair loops, in loop
order: i ascending, j ascending over i+1 .. n-1. -/
def pairList (n : ℕ) : List (ℕ × ℕ) :=
  (List.range n).flatMap (fun i => ((List.range n).filter (fun j => i < j)).map (fun j => (i, j)))

/-- One iteration of resolveOverlaps: every pair in order, then one clamp
of every body (the source clamps once per iteration, after the pair
loop). -/
noncomputable def onePass (innerWidth width height : ℝ) (l : List Asteroid) : List Asteroid :=
  ((pairList l.length).foldl (fun acc ij => pairStep innerWidth acc ij.1 ij.2) l).map
    (clampToBounds innerWidth width height)

/-- resolveOverlaps from the source, with its iteration count. -/
noncomputable def resolveOverlaps (innerWidth width height : ℝ) : ℕ → List Asteroid → List Asteroid
  | 0, l => l
  | Nat.succ n, l => resolveOverlaps innerWidth width height n (onePass innerWidth width height l)

/-- generateAsteroidVertices from the source, with the per-body random
phase passed in as the seed argument (the source draws
seed = Math.random() * 2 * pi once per body). -/
noncomputable def generateAsteroidVertices (size seed : ℝ) : List Pt :=
  (List.range 18).map (fun (i : ℕ) =>
    let angle := ((i : ℝ) / 18) * Real.pi * 2
    let wobble :=
      0.92 + Real.sin (angle * 2 + seed) * 0.06 + Real.cos (angle * 3.2 + seed * 0.7) * 0.05
    let rr := (size / 2) * wobble
    ⟨Real.cos angle * rr, Real.sin angle * rr⟩)

/-- The scan of the for loop of hitTest over the body list: first body
whose center is strictly closer than r + 12 to the query point. -/
noncomputable def hitTestGo (x y : ℝ) : List Asteroid → Option Asteroid
  | [] => none
  | a :: rest =>
      if Real.sqrt ((x - a.x) ^ 2 + (y - a.y) ^ 2) < a.r + 12 then some a
      else hitTestGo x y rest

/-- hitTest from the source: translate the client coordinate into
container space and scan the bodies in order. -/
noncomputable def hitTest (bodies : List Asteroid) (rectLeft rectTop clientX clientY : ℝ) :
    Option Asteroid :=
  hitTestGo (clientX - rectLeft) (clientY - rectTop) bodies

/-- A body position being inside the clamp rectangle of clampToBounds. -/
noncomputable def inClampBounds (innerWidth width height : ℝ) (a : Asteroid) : Prop :=
  clampMinX innerWidth a ≤ a.x ∧ a.x ≤ clampMaxX innerWidth width a ∧
  clampMinY a ≤ a.y ∧ a.y ≤ clampMaxY innerWidth height a

/-- Concrete body left of the left clamp bound with inward (positive)
drift: at innerWidth 1024 the bound is 40 + max 20 140 = 180 > 100. -/
def bodyWallCex : Asteroid := ⟨100, 300, 40, 0, 1, 0, 0, [], 20⟩

/-- Concrete body left of the left clamp bound with outward (negative)
drift. -/
def bodyWallWit : Asteroid := ⟨100, 300, 40, 0, -1, 0, 0, [], 20⟩

/-- Concrete body violating the left bound so deeply that the reflecting
clamp overshoots the right bound: at innerWidth 800 and width 500 the
bounds are 160 and 340, and the reflection maps x = -840 to 1160.35. -/
def bodyContainCex : Asteroid := ⟨-840, 100, 40, 0, 0, 0, 0, [], 20⟩

/-- Concrete body inside the clamp bounds for innerWidth 1280 and a
1000 x 1000 viewport. -/
def bodyFixWit : Asteroid := ⟨500, 100, 40, 0, 0, 0, 0, [], 20⟩

/-- Concrete in-bounds body used for the idempotence witness. -/
def bodyFix6 : Asteroid := ⟨500, 100, 40, 0, 0, 0, 0, [], 20⟩

/-- First body of the no-overlap counterexample: empty silhouette, so its
merged collider is exactly its 240 x 40 label rectangle; x sits exactly at
the unique admissible clamp position of a width-320 viewport. -/
def bodyC1A : Asteroid := ⟨160, 45, 40, 0, 0, 0, 0, [], 0⟩

/-- Second body of the no-overlap counterexample, 10 pixels below the
first. -/
def bodyC1B : Asteroid := ⟨160, 55, 40, 0, 0, 0, 0, [], 0⟩

/-- State of the first body after the pair push of one resolution
iteration (pushed up by (30 + 0.25) / 2 = 15.125). -/
def bodyC1A1 : Asteroid := ⟨160, 29.875, 40, 0, 0, 0, 0, [], 0⟩

/-- State of the second body after the pair push (pushed down by
15.125); it stays inside the clamp bounds. -/
def bodyC1B1 : Asteroid := ⟨160, 70.125, 40, 0, 0, 0, 0, [], 0⟩

/-- State of the first body after the clamp that ends the iteration: the
push drove it above minY = 40, and the reflecting clamp returns it to
50.475, re-overlapping the second body. -/
def bodyC1A2 : Asteroid := ⟨160, 50.475, 40, 0, 0, 0, 0, [], 0⟩

/-- The hit predicate of hitTest: the query point (container space) is
strictly closer to the body center than collisionRadius + 12. -/
noncomputable def hitP (x y : ℝ) (b : Asteroid) : Prop :=
  Real.sqrt ((x - b.x) ^ 2 + (y - b.y) ^ 2) < b.r + 12

/-- The corner list of an axis-aligned rectangle, in the order used for
label corners by the source. -/
def rectPts (x1 x2 y1 y2 : ℝ) : List Pt := [⟨x1, y1⟩, ⟨x2, y1⟩, ⟨x2, y2⟩, ⟨x1, y2⟩]

/-- The projection overlap of two polygons on one axis, as computed inside
the axis loop of satMTV. -/
noncomputable def ovOn (A B : List Pt) (axis : Pt) : ℝ :=
  min (projectPoly A axis).2 (projectPoly B axis).2 -
    max (projectPoly A axis).1 (projectPoly B axis).1

/-- An axis-aligned unit square with lower-left corner (d, 0). -/
def unitSq (d : ℝ) : List Pt := rectPts d (d + 1) 0 1

/-- Translation of a point, used to relate the collider of a pushed body
to the collider of the original body. -/
def translatePt (tx ty : ℝ) (p : Pt) : Pt := ⟨p.x + tx, p.y + ty⟩

/-- Strict lexicographic order on points (the strict part of the sort
comparator). -/
def ptLT (a b : Pt) : Prop :=
  a.x < b.x ∨ (a.x = b.x ∧ a.y < b.y)

/-- Point negation; processing points in decreasing order equals
processing negated points in increasing order, and cross is invariant. -/
def negPt (p : Pt) : Pt := ⟨-p.x, -p.y⟩

/-- General position: pairwise distinct points, no three of them
collinear. -/
def genPos (pts : List Pt) : Prop :=
  pts.Pairwise (fun a b => a ≠ b) ∧
  ∀ a ∈ pts, ∀ b ∈ pts, ∀ c ∈ pts, a ≠ b → a ≠ c → b ≠ c → cross a b c ≠ 0

/-- All edges (adjacent forward pairs) of a vertex list keep p on their
left or on them. -/
def edgesLeft (p : Pt) (l : List Pt) : Prop :=
  ∀ u v : Pt, [u, v] <:+: l → 0 ≤ cross u v p

/-- All adjacent forward triples of a vertex list are strict left
turns. -/
def turnsLeft (l : List Pt) : Prop :=
  ∀ a b c : Pt, [a, b, c] <:+: l → 0 < cross a b c

/-- A point is on or inside a convex polygon: it is weakly left of every
edge, the closing edge included. -/
def insideHull (H : List Pt) (p : Pt) : Prop :=
  edgesLeft p (H ++ H.take 1)

/-- Consistent counterclockwise winding: every cyclic triple of adjacent
vertices is a strict left turn. -/
def windsCCW (H : List Pt) : Prop :=
  turnsLeft (H ++ H.take 2)

/-- Stack-side edge predicate: the stack is the reversed chain, so the
forward edge (u, v) appears as the adjacent pair [v, u]. -/
def aboveI (p : Pt) (st : List Pt) : Prop :=
  ∀ u v : Pt, [v, u] <:+: st → 0 ≤ cross u v p

/-- Stack-side convexity: the forward triple (a, b, c) appears as the
adjacent triple [c, b, a]. -/
def convexI (st : List Pt) : Prop :=
  ∀ a b c : Pt, [c, b, a] <:+: st → 0 < cross a b c

/-- The invariant maintained by the monotone-chain fold: the stack is the
reversed chain of the processed prefix. -/
structure ChainInv (p0 : Pt) (processed st : List Pt) : Prop where
  hne : st ≠ []
  hhead : st.head? = processed.getLast?
  hlast : st.getLast? = some p0
  hmem : ∀ y ∈ st, y ∈ processed
  hdec : st.Pairwise (fun a b => ptLT b a)
  hconv : convexI st
  habove : ∀ p ∈ processed, aboveI p st

/-- Facts about the upper chain, transferred from the lower-chain
invariant through point negation. -/
structure UpFacts (S L : List Pt) : Prop where
  hne : L ≠ []
  hhead : L.head? = S.head?
  hlastU : L.getLast? = S.getLast?
  hmem : ∀ y ∈ L, y ∈ S
  hinc : L.Pairwise ptLT
  hconv : convexI L
  habove : ∀ p ∈ S, aboveI p L

section Helpers

/-- normalize of a vertical vector with positive component. -/
theorem normalize_y_pos (t : ℝ) (ht : 0 < t) : normalize ⟨0, t⟩ = ⟨0, 1⟩ := by
  simp only [normalize]
  rw [show ((0 : ℝ)) ^ 2 + t ^ 2 = t ^ 2 by ring, Real.sqrt_sq ht.le,
    if_neg (ne_of_gt ht), zero_div, div_self (ne_of_gt ht)]

/-- normalize of a vertical vector with negative component. -/
theorem normalize_y_neg (t : ℝ) (ht : t < 0) : normalize ⟨0, t⟩ = ⟨0, -1⟩ := by
  simp only [normalize]
  rw [show ((0 : ℝ)) ^ 2 + t ^ 2 = (-t) ^ 2 by ring, Real.sqrt_sq (by linarith),
    if_neg (by intro h; linarith), zero_div]
  rw [show t / -t = -1 by rw [div_neg, div_self (ne_of_lt ht)]]

/-- normalize of a horizontal vector with positive component. -/
theorem normalize_x_pos (t : ℝ) (ht : 0 < t) : normalize ⟨t, 0⟩ = ⟨1, 0⟩ := by
  simp only [normalize]
  rw [show t ^ 2 + (0 : ℝ) ^ 2 = t ^ 2 by ring, Real.sqrt_sq ht.le,
    if_neg (ne_of_gt ht), zero_div, div_self (ne_of_gt ht)]

/-- normalize of a horizontal vector with negative component. -/
theorem normalize_x_neg (t : ℝ) (ht : t < 0) : normalize ⟨t, 0⟩ = ⟨-1, 0⟩ := by
  simp only [normalize]
  rw [show t ^ 2 + (0 : ℝ) ^ 2 = (-t) ^ 2 by ring, Real.sqrt_sq (by linarith),
    if_neg (by intro h; linarith), zero_div]
  rw [show t / -t = -1 by rw [div_neg, div_self (ne_of_lt ht)]]

/-- The SAT axes of an axis-aligned rectangle. -/
theorem axesOf_rect (x1 x2 y1 y2 : ℝ) (hx : x1 < x2) (hy : y1 < y2) :
    axesOf (rectPts x1 x2 y1 y2) = [⟨0, 1⟩, ⟨-1, 0⟩, ⟨0, -1⟩, ⟨1, 0⟩] := by
  have h1 : normalize ⟨-(y1 - y1), x2 - x1⟩ = ⟨0, 1⟩ := by
    rw [show -(y1 - y1) = (0 : ℝ) by ring]; exact normalize_y_pos _ (by linarith)
  have h2 : normalize ⟨-(y2 - y1), x2 - x2⟩ = ⟨-1, 0⟩ := by
    rw [show x2 - x2 = (0 : ℝ) by ring]; exact normalize_x_neg _ (by linarith)
  have h3 : normalize ⟨-(y2 - y2), x1 - x2⟩ = ⟨0, -1⟩ := by
    rw [show -(y2 - y2) = (0 : ℝ) by ring]; exact normalize_y_neg _ (by linarith)
  have h4 : normalize ⟨-(y1 - y2), x1 - x1⟩ = ⟨1, 0⟩ := by
    rw [show x1 - x1 = (0 : ℝ) by ring]; exact normalize_x_pos _ (by linarith)
  have hrot : (rectPts x1 x2 y1 y2).rotate 1 = [⟨x2, y1⟩, ⟨x2, y2⟩, ⟨x1, y2⟩, ⟨x1, y1⟩] := by
    simp [rectPts, List.rotate]
  simp only [axesOf, hrot, rectPts, List.zipWith]
  rw [h1, h2, h3, h4]

/-- Projection of a rectangle onto the upward axis. -/
theorem projectPoly_rect_yp (x1 x2 y1 y2 : ℝ) (hy : y1 ≤ y2) :
    projectPoly (rectPts x1 x2 y1 y2) ⟨0, 1⟩ = (y1, y2) := by
  simp only [projectPoly, rectPts, dot, List.foldl]
  norm_num
  all_goals linarith

/-- Projection of a rectangle onto the downward axis. -/
theorem projectPoly_rect_yn (x1 x2 y1 y2 : ℝ) (hy : y1 ≤ y2) :
    projectPoly (rectPts x1 x2 y1 y2) ⟨0, -1⟩ = (-y2, -y1) := by
  simp only [projectPoly, rectPts, dot, List.foldl]
  norm_num
  all_goals linarith

/-- Projection of a rectangle onto the rightward axis. -/
theorem projectPoly_rect_xp (x1 x2 y1 y2 : ℝ) (hx : x1 ≤ x2) :
    projectPoly (rectPts x1 x2 y1 y2) ⟨1, 0⟩ = (x1, x2) := by
  simp only [projectPoly, rectPts, dot, List.foldl]
  norm_num
  all_goals linarith

/-- Projection of a rectangle onto the leftward axis. -/
theorem projectPoly_rect_xn (x1 x2 y1 y2 : ℝ) (hx : x1 ≤ x2) :
    projectPoly (rectPts x1 x2 y1 y2) ⟨-1, 0⟩ = (-x2, -x1) := by
  simp only [projectPoly, rectPts, dot, List.foldl]
  norm_num
  all_goals linarith

/-- Comparator facts for the lexicographic point order. -/
theorem ptLE_of_lt {a b : Pt} (h : a.x < b.x) : ptLE a b := Or.inl h

/-- Comparator fact: equal x, ordered y. -/
theorem ptLE_of_eq {a b : Pt} (h : a.x = b.x) (h2 : a.y ≤ b.y) : ptLE a b := Or.inr ⟨h, h2⟩

/-- Comparator fact: strictly larger x refutes the order. -/
theorem not_ptLE {a b : Pt} (h : b.x < a.x) : ¬ptLE a b := by
  rintro (h1 | ⟨h1, -⟩) <;> linarith

/-- The axis loop on an empty axis list returns the accumulator. -/
theorem runAxes_nil (A B : List Pt) (best : Option (ℝ × Pt)) :
    runAxes A B [] best = some best := rfl

/-- First overlapping axis initialises the best accumulator. -/
theorem runAxes_cons_start {A B : List Pt} {ax : Pt} (rest : List Pt)
    (h : 0 < ovOn A B ax) :
    runAxes A B (ax :: rest) none = runAxes A B rest (some (ovOn A B ax, ax)) := by
  simp only [runAxes]
  rw [if_neg (show ¬(min (projectPoly A ax).2 (projectPoly B ax).2 - max (projectPoly A ax).1 (projectPoly B ax).1 ≤ 0) from not_le.2 h)]
  rfl

/-- An overlapping axis that does not beat the best overlap is skipped. -/
theorem runAxes_cons_keep {A B : List Pt} {ax : Pt} {bo : ℝ} {bax : Pt} (rest : List Pt)
    (h : 0 < ovOn A B ax) (hk : ¬ovOn A B ax < bo) :
    runAxes A B (ax :: rest) (some (bo, bax)) = runAxes A B rest (some (bo, bax)) := by
  simp only [runAxes]
  rw [if_neg (show ¬(min (projectPoly A ax).2 (projectPoly B ax).2 - max (projectPoly A ax).1 (projectPoly B ax).1 ≤ 0) from not_le.2 h),
    if_neg (show ¬(min (projectPoly A ax).2 (projectPoly B ax).2 - max (projectPoly A ax).1 (projectPoly B ax).1 < bo) from hk)]

/-- An overlapping axis with strictly smaller overlap replaces the best. -/
theorem runAxes_cons_update {A B : List Pt} {ax : Pt} {bo : ℝ} {bax : Pt} (rest : List Pt)
    (h : 0 < ovOn A B ax) (hlt : ovOn A B ax < bo) :
    runAxes A B (ax :: rest) (some (bo, bax)) = runAxes A B rest (some (ovOn A B ax, ax)) := by
  simp only [runAxes]
  rw [if_neg (show ¬(min (projectPoly A ax).2 (projectPoly B ax).2 - max (projectPoly A ax).1 (projectPoly B ax).1 ≤ 0) from not_le.2 h),
    if_pos (show min (projectPoly A ax).2 (projectPoly B ax).2 - max (projectPoly A ax).1 (projectPoly B ax).1 < bo from hlt)]
  rfl

/-- satMTV in terms of a computed axis loop, non-flipping case. -/
theorem satMTV_finish (A B : List Pt) (bo : ℝ) (bax : Pt)
    (hrun : runAxes A B (axesOf A ++ axesOf B) none = some (some (bo, bax)))
    (hflip : ¬dot ⟨(centroid B).x - (centroid A).x, (centroid B).y - (centroid A).y⟩ bax < 0) :
    satMTV A B = some ⟨bax.x, bax.y, bo⟩ := by
  simp only [satMTV, hrun]
  rw [if_neg hflip]

/-- satMTV in terms of a computed axis loop, flipping case. -/
theorem satMTV_finish_flip (A B : List Pt) (bo : ℝ) (bax : Pt)
    (hrun : runAxes A B (axesOf A ++ axesOf B) none = some (some (bo, bax)))
    (hflip : dot ⟨(centroid B).x - (centroid A).x, (centroid B).y - (centroid A).y⟩ bax < 0) :
    satMTV A B = some ⟨-bax.x, -bax.y, bo⟩ := by
  simp only [satMTV, hrun]
  rw [if_pos hflip]

/-- The centroid of a rectangle corner list is its center. -/
theorem centroid_rect (x1 x2 y1 y2 : ℝ) :
    centroid (rectPts x1 x2 y1 y2) =
      ⟨(x1 + x2 + x2 + x1) / 4, (y1 + y1 + y2 + y2) / 4⟩ := by
  simp only [centroid, rectPts, List.map_cons, List.map_nil, List.sum_cons, List.sum_nil,
    List.length_cons, List.length_nil]
  norm_num
  constructor <;> ring

/-- Overlap of two rectangles on the upward axis. -/
theorem ovOn_rect_yp (ax1 ax2 ay1 ay2 bx1 bx2 by1 by2 : ℝ) (hay : ay1 ≤ ay2) (hby : by1 ≤ by2) :
    ovOn (rectPts ax1 ax2 ay1 ay2) (rectPts bx1 bx2 by1 by2) ⟨0, 1⟩ =
      min ay2 by2 - max ay1 by1 := by
  simp only [ovOn, projectPoly_rect_yp ax1 ax2 ay1 ay2 hay, projectPoly_rect_yp bx1 bx2 by1 by2 hby]

/-- Overlap of two rectangles on the downward axis. -/
theorem ovOn_rect_yn (ax1 ax2 ay1 ay2 bx1 bx2 by1 by2 : ℝ) (hay : ay1 ≤ ay2) (hby : by1 ≤ by2) :
    ovOn (rectPts ax1 ax2 ay1 ay2) (rectPts bx1 bx2 by1 by2) ⟨0, -1⟩ =
      min ay2 by2 - max ay1 by1 := by
  simp only [ovOn, projectPoly_rect_yn ax1 ax2 ay1 ay2 hay, projectPoly_rect_yn bx1 bx2 by1 by2 hby]
  rw [min_neg_neg, max_neg_neg]
  ring

/-- Overlap of two rectangles on the rightward axis. -/
theorem ovOn_rect_xp (ax1 ax2 ay1 ay2 bx1 bx2 by1 by2 : ℝ) (hax : ax1 ≤ ax2) (hbx : bx1 ≤ bx2) :
    ovOn (rectPts ax1 ax2 ay1 ay2) (rectPts bx1 bx2 by1 by2) ⟨1, 0⟩ =
      min ax2 bx2 - max ax1 bx1 := by
  simp only [ovOn, projectPoly_rect_xp ax1 ax2 ay1 ay2 hax, projectPoly_rect_xp bx1 bx2 by1 by2 hbx]

/-- Overlap of two rectangles on the leftward axis. -/
theorem ovOn_rect_xn (ax1 ax2 ay1 ay2 bx1 bx2 by1 by2 : ℝ) (hax : ax1 ≤ ax2) (hbx : bx1 ≤ bx2) :
    ovOn (rectPts ax1 ax2 ay1 ay2) (rectPts bx1 bx2 by1 by2) ⟨-1, 0⟩ =
      min ax2 bx2 - max ax1 bx1 := by
  simp only [ovOn, projectPoly_rect_xn ax1 ax2 ay1 ay2 hax, projectPoly_rect_xn bx1 bx2 by1 by2 hbx]
  rw [min_neg_neg, max_neg_neg]
  ring

/-- satMTV of two axis-aligned rectangles whose minimum overlap is on the
vertical axis, with the second rectangle not above the first: the result
is the upward axis with the vertical overlap. -/
theorem satMTV_rect_y (ax1 ax2 ay1 ay2 bx1 bx2 by1 by2 : ℝ)
    (hax : ax1 < ax2) (hay : ay1 < ay2) (hbx : bx1 < bx2) (hby : by1 < by2)
    (hoy : 0 < min ay2 by2 - max ay1 by1)
    (hyx : min ay2 by2 - max ay1 by1 < min ax2 bx2 - max ax1 bx1)
    (hdir : ay1 + ay2 ≤ by1 + by2) :
    satMTV (rectPts ax1 ax2 ay1 ay2) (rectPts bx1 bx2 by1 by2) =
      some ⟨0, 1, min ay2 by2 - max ay1 by1⟩ := by
  have hox : 0 < min ax2 bx2 - max ax1 bx1 := lt_trans hoy hyx
  have hA1 := ovOn_rect_yp ax1 ax2 ay1 ay2 bx1 bx2 by1 by2 hay.le hby.le
  have hA2 := ovOn_rect_xn ax1 ax2 ay1 ay2 bx1 bx2 by1 by2 hax.le hbx.le
  have hA3 := ovOn_rect_yn ax1 ax2 ay1 ay2 bx1 bx2 by1 by2 hay.le hby.le
  have hA4 := ovOn_rect_xp ax1 ax2 ay1 ay2 bx1 bx2 by1 by2 hax.le hbx.le
  have hrun : runAxes (rectPts ax1 ax2 ay1 ay2) (rectPts bx1 bx2 by1 by2)
      (axesOf (rectPts ax1 ax2 ay1 ay2) ++ axesOf (rectPts bx1 bx2 by1 by2)) none =
      some (some (min ay2 by2 - max ay1 by1, ⟨0, 1⟩)) := by
    rw [axesOf_rect ax1 ax2 ay1 ay2 hax hay, axesOf_rect bx1 bx2 by1 by2 hbx hby]
    simp only [List.cons_append, List.nil_append]
    rw [runAxes_cons_start _ (by rw [hA1]; exact hoy), hA1,
      runAxes_cons_keep _ (by rw [hA2]; exact hox) (by rw [hA2]; exact not_lt.2 hyx.le),
      runAxes_cons_keep _ (by rw [hA3]; exact hoy) (by rw [hA3]; exact not_lt.2 le_rfl),
      runAxes_cons_keep _ (by rw [hA4]; exact hox) (by rw [hA4]; exact not_lt.2 hyx.le),
      runAxes_cons_keep _ (by rw [hA1]; exact hoy) (by rw [hA1]; exact not_lt.2 le_rfl),
      runAxes_cons_keep _ (by rw [hA2]; exact hox) (by rw [hA2]; exact not_lt.2 hyx.le),
      runAxes_cons_keep _ (by rw [hA3]; exact hoy) (by rw [hA3]; exact not_lt.2 le_rfl),
      runAxes_cons_keep _ (by rw [hA4]; exact hox) (by rw [hA4]; exact not_lt.2 hyx.le),
      runAxes_nil]
  have hflip : ¬dot ⟨(centroid (rectPts bx1 bx2 by1 by2)).x -
        (centroid (rectPts ax1 ax2 ay1 ay2)).x,
      (centroid (rectPts bx1 bx2 by1 by2)).y - (centroid (rectPts ax1 ax2 ay1 ay2)).y⟩
      ⟨0, 1⟩ < 0 := by
    rw [centroid_rect, centroid_rect]
    simp only [dot]
    refine not_lt.2 ?_
    norm_num
    linarith
  exact satMTV_finish (rectPts ax1 ax2 ay1 ay2) (rectPts bx1 bx2 by1 by2)
    (min ay2 by2 - max ay1 by1) ⟨0, 1⟩ hrun hflip

/-- satMTV of two axis-aligned rectangles whose minimum overlap is on the
horizontal axis, with the second rectangle strictly to the right: the
result is the rightward axis (after centroid flipping) with the
horizontal overlap. -/
theorem satMTV_rect_x (ax1 ax2 ay1 ay2 bx1 bx2 by1 by2 : ℝ)
    (hax : ax1 < ax2) (hay : ay1 < ay2) (hbx : bx1 < bx2) (hby : by1 < by2)
    (hox : 0 < min ax2 bx2 - max ax1 bx1)
    (hxy : min ax2 bx2 - max ax1 bx1 < min ay2 by2 - max ay1 by1)
    (hdir : ax1 + ax2 < bx1 + bx2) :
    satMTV (rectPts ax1 ax2 ay1 ay2) (rectPts bx1 bx2 by1 by2) =
      some ⟨1, 0, min ax2 bx2 - max ax1 bx1⟩ := by
  have hoy : 0 < min ay2 by2 - max ay1 by1 := lt_trans hox hxy
  have hA1 := ovOn_rect_yp ax1 ax2 ay1 ay2 bx1 bx2 by1 by2 hay.le hby.le
  have hA2 := ovOn_rect_xn ax1 ax2 ay1 ay2 bx1 bx2 by1 by2 hax.le hbx.le
  have hA3 := ovOn_rect_yn ax1 ax2 ay1 ay2 bx1 bx2 by1 by2 hay.le hby.le
  have hA4 := ovOn_rect_xp ax1 ax2 ay1 ay2 bx1 bx2 by1 by2 hax.le hbx.le
  have hrun : runAxes (rectPts ax1 ax2 ay1 ay2) (rectPts bx1 bx2 by1 by2)
      (axesOf (rectPts ax1 ax2 ay1 ay2) ++ axesOf (rectPts bx1 bx2 by1 by2)) none =
      some (some (min ax2 bx2 - max ax1 bx1, ⟨-1, 0⟩)) := by
    rw [axesOf_rect ax1 ax2 ay1 ay2 hax hay, axesOf_rect bx1 bx2 by1 by2 hbx hby]
    simp only [List.cons_append, List.nil_append]
    rw [runAxes_cons_start _ (by rw [hA1]; exact hoy), hA1,
      runAxes_cons_update _ (by rw [hA2]; exact hox) (by rw [hA2]; exact hxy), hA2,
      runAxes_cons_keep _ (by rw [hA3]; exact hoy) (by rw [hA3]; exact not_lt.2 hxy.le),
      runAxes_cons_keep _ (by rw [hA4]; exact hox) (by rw [hA4]; exact not_lt.2 le_rfl),
      runAxes_cons_keep _ (by rw [hA1]; exact hoy) (by rw [hA1]; exact not_lt.2 hxy.le),
      runAxes_cons_keep _ (by rw [hA2]; exact hox) (by rw [hA2]; exact not_lt.2 le_rfl),
      runAxes_cons_keep _ (by rw [hA3]; exact hoy) (by rw [hA3]; exact not_lt.2 hxy.le),
      runAxes_cons_keep _ (by rw [hA4]; exact hox) (by rw [hA4]; exact not_lt.2 le_rfl),
      runAxes_nil]
  have hflip : dot ⟨(centroid (rectPts bx1 bx2 by1 by2)).x -
        (centroid (rectPts ax1 ax2 ay1 ay2)).x,
      (centroid (rectPts bx1 bx2 by1 by2)).y - (centroid (rectPts ax1 ax2 ay1 ay2)).y⟩
      ⟨-1, 0⟩ < 0 := by
    rw [centroid_rect, centroid_rect]
    simp only [dot]
    norm_num
    linarith
  have hres := satMTV_finish_flip (rectPts ax1 ax2 ay1 ay2) (rectPts bx1 bx2 by1 by2)
    (min ax2 bx2 - max ax1 bx1) ⟨-1, 0⟩ hrun hflip
  rw [hres]
  norm_num

/-- Evaluation of the sort step on rectangle corners. -/
theorem sort_rect (x1 x2 y1 y2 : ℝ) (hx : x1 < x2) (hy : y1 < y2) :
    List.insertionSort ptLE (rectPts x1 x2 y1 y2) =
      [⟨x1, y1⟩, ⟨x1, y2⟩, ⟨x2, y1⟩, ⟨x2, y2⟩] := by
  have e2 : List.orderedInsert ptLE ⟨x2, y2⟩ [⟨x1, y2⟩] = [⟨x1, y2⟩, ⟨x2, y2⟩] := by
    rw [List.orderedInsert, if_neg (not_ptLE hx), List.orderedInsert_nil]
  have e3 : List.orderedInsert ptLE ⟨x2, y1⟩ [⟨x1, y2⟩, ⟨x2, y2⟩] =
      [⟨x1, y2⟩, ⟨x2, y1⟩, ⟨x2, y2⟩] := by
    rw [List.orderedInsert, if_neg (not_ptLE hx), List.orderedInsert,
      if_pos (show ptLE ⟨x2, y1⟩ ⟨x2, y2⟩ from Or.inr ⟨rfl, hy.le⟩)]
  have e4 : List.orderedInsert ptLE ⟨x1, y1⟩ [⟨x1, y2⟩, ⟨x2, y1⟩, ⟨x2, y2⟩] =
      [⟨x1, y1⟩, ⟨x1, y2⟩, ⟨x2, y1⟩, ⟨x2, y2⟩] := by
    rw [List.orderedInsert, if_pos (show ptLE ⟨x1, y1⟩ ⟨x1, y2⟩ from Or.inr ⟨rfl, hy.le⟩)]
  show List.orderedInsert ptLE ⟨x1, y1⟩ (List.orderedInsert ptLE ⟨x2, y1⟩
    (List.orderedInsert ptLE ⟨x2, y2⟩ (List.orderedInsert ptLE ⟨x1, y2⟩ []))) = _
  rw [List.orderedInsert_nil, e2, e3, e4]

theorem chain_lower_rect (x1 x2 y1 y2 : ℝ) (hx : x1 < x2) (hy : y1 < y2) :
    chainOf [⟨x1, y1⟩, ⟨x1, y2⟩, ⟨x2, y1⟩, ⟨x2, y2⟩] =
      [⟨x2, y2⟩, ⟨x2, y1⟩, ⟨x1, y1⟩] := by
  have hc1 : cross ⟨x1, y1⟩ ⟨x1, y2⟩ ⟨x2, y1⟩ ≤ 0 := by
    simp only [cross]; nlinarith
  have hc2 : ¬cross ⟨x1, y1⟩ ⟨x2, y1⟩ ⟨x2, y2⟩ ≤ 0 := by
    simp only [cross]; push_neg; nlinarith
  simp only [chainOf, List.foldl]
  rw [show popWhile (⟨x1, y1⟩ : Pt) [] = [] from rfl]
  rw [show popWhile (⟨x1, y2⟩ : Pt) [⟨x1, y1⟩] = [⟨x1, y1⟩] from rfl]
  rw [show popWhile (⟨x2, y1⟩ : Pt) [⟨x1, y2⟩, ⟨x1, y1⟩] = [⟨x1, y1⟩] by
    rw [popWhile, if_pos hc1]
    rfl]
  rw [show popWhile (⟨x2, y2⟩ : Pt) [⟨x2, y1⟩, ⟨x1, y1⟩] = [⟨x2, y1⟩, ⟨x1, y1⟩] by
    rw [popWhile, if_neg hc2]]

theorem chain_upper_rect (x1 x2 y1 y2 : ℝ) (hx : x1 < x2) (hy : y1 < y2) :
    chainOf [⟨x2, y2⟩, ⟨x2, y1⟩, ⟨x1, y2⟩, ⟨x1, y1⟩] =
      [⟨x1, y1⟩, ⟨x1, y2⟩, ⟨x2, y2⟩] := by
  have hc1 : cross ⟨x2, y2⟩ ⟨x2, y1⟩ ⟨x1, y2⟩ ≤ 0 := by
    simp only [cross]; nlinarith
  have hc2 : ¬cross ⟨x2, y2⟩ ⟨x1, y2⟩ ⟨x1, y1⟩ ≤ 0 := by
    simp only [cross]; push_neg; nlinarith
  simp only [chainOf, List.foldl]
  rw [show popWhile (⟨x2, y2⟩ : Pt) [] = [] from rfl]
  rw [show popWhile (⟨x2, y1⟩ : Pt) [⟨x2, y2⟩] = [⟨x2, y2⟩] from rfl]
  rw [show popWhile (⟨x1, y2⟩ : Pt) [⟨x2, y1⟩, ⟨x2, y2⟩] = [⟨x2, y2⟩] by
    rw [popWhile, if_pos hc1]
    rfl]
  rw [show popWhile (⟨x1, y1⟩ : Pt) [⟨x1, y2⟩, ⟨x2, y2⟩] = [⟨x1, y2⟩, ⟨x2, y2⟩] by
    rw [popWhile, if_neg hc2]]

theorem convexHull_eq_of_big (pts : List Pt) (h : ¬pts.length ≤ 3) :
    convexHull pts =
      (chainOf (List.insertionSort ptLE pts)).tail.reverse ++
        (chainOf (List.insertionSort ptLE pts).reverse).tail.reverse := by
  rw [convexHull, if_neg h]

theorem convexHull_rect (x1 x2 y1 y2 : ℝ) (hx : x1 < x2) (hy : y1 < y2) :
    convexHull (rectPts x1 x2 y1 y2) = rectPts x1 x2 y1 y2 := by
  rw [convexHull_eq_of_big _ (by simp [rectPts]), sort_rect x1 x2 y1 y2 hx hy]
  rw [show ([⟨x1, y1⟩, ⟨x1, y2⟩, ⟨x2, y1⟩, ⟨x2, y2⟩] : List Pt).reverse =
    [⟨x2, y2⟩, ⟨x2, y1⟩, ⟨x1, y2⟩, ⟨x1, y1⟩] by simp]
  rw [chain_lower_rect x1 x2 y1 y2 hx hy, chain_upper_rect x1 x2 y1 y2 hx hy]
  simp [rectPts]

/-- The orientation test is translation invariant. -/
theorem cross_translate (tx ty : ℝ) (o a b : Pt) :
    cross (translatePt tx ty o) (translatePt tx ty a) (translatePt tx ty b) = cross o a b := by
  simp only [cross, translatePt]
  ring

/-- The sort order is translation invariant. -/
theorem ptLE_translate (tx ty : ℝ) (a b : Pt) :
    ptLE (translatePt tx ty a) (translatePt tx ty b) ↔ ptLE a b := by
  simp [ptLE, translatePt]

/-- orderedInsert commutes with translation. -/
theorem orderedInsert_translate (tx ty : ℝ) (a : Pt) :
    ∀ l : List Pt,
      List.orderedInsert ptLE (translatePt tx ty a) (l.map (translatePt tx ty)) =
        (List.orderedInsert ptLE a l).map (translatePt tx ty)
  | [] => rfl
  | b :: l => by
      by_cases h : ptLE a b
      · have hL : List.orderedInsert ptLE (translatePt tx ty a)
            (translatePt tx ty b :: l.map (translatePt tx ty)) =
            translatePt tx ty a :: translatePt tx ty b :: l.map (translatePt tx ty) := by
          rw [List.orderedInsert, if_pos ((ptLE_translate tx ty a b).2 h)]
        have hR : List.orderedInsert ptLE a (b :: l) = a :: b :: l := by
          rw [List.orderedInsert, if_pos h]
        rw [List.map_cons, hL, hR, List.map_cons, List.map_cons]
      · have hL : List.orderedInsert ptLE (translatePt tx ty a)
            (translatePt tx ty b :: l.map (translatePt tx ty)) =
            translatePt tx ty b ::
              List.orderedInsert ptLE (translatePt tx ty a) (l.map (translatePt tx ty)) := by
          rw [List.orderedInsert, if_neg fun hc => h ((ptLE_translate tx ty a b).1 hc)]
        have hR : List.orderedInsert ptLE a (b :: l) = b :: List.orderedInsert ptLE a l := by
          rw [List.orderedInsert, if_neg h]
        rw [List.map_cons, hL, hR, List.map_cons, orderedInsert_translate tx ty a l]

/-- insertionSort commutes with translation. -/
theorem insertionSort_translate (tx ty : ℝ) :
    ∀ l : List Pt,
      List.insertionSort ptLE (l.map (translatePt tx ty)) =
        (List.insertionSort ptLE l).map (translatePt tx ty)
  | [] => rfl
  | a :: l => by
      rw [List.map_cons, List.insertionSort, List.insertionSort,
        insertionSort_translate tx ty l, orderedInsert_translate]

/-- The chain pop loop commutes with translation. -/
theorem popWhile_translate (tx ty : ℝ) (p : Pt) :
    ∀ st : List Pt,
      popWhile (translatePt tx ty p) (st.map (translatePt tx ty)) =
        (popWhile p st).map (translatePt tx ty)
  | [] => rfl
  | [b] => rfl
  | b :: a :: rest => by
      by_cases h : cross a b p ≤ 0
      · have hL : popWhile (translatePt tx ty p)
            (translatePt tx ty b :: translatePt tx ty a :: rest.map (translatePt tx ty)) =
            popWhile (translatePt tx ty p)
              (translatePt tx ty a :: rest.map (translatePt tx ty)) := by
          rw [popWhile, if_pos (by rw [cross_translate]; exact h)]
        have hR : popWhile p (b :: a :: rest) = popWhile p (a :: rest) := by
          rw [popWhile, if_pos h]
        rw [List.map_cons, List.map_cons, hL, hR, ← List.map_cons]
        exact popWhile_translate tx ty p (a :: rest)
      · have hL : popWhile (translatePt tx ty p)
            (translatePt tx ty b :: translatePt tx ty a :: rest.map (translatePt tx ty)) =
            translatePt tx ty b :: translatePt tx ty a :: rest.map (translatePt tx ty) := by
          rw [popWhile, if_neg (by rw [cross_translate]; exact h)]
        have hR : popWhile p (b :: a :: rest) = b :: a :: rest := by
          rw [popWhile, if_neg h]
        rw [List.map_cons, List.map_cons, hL, hR, List.map_cons, List.map_cons]

/-- The chain fold commutes with translation. -/
theorem chain_fold_translate (tx ty : ℝ) :
    ∀ (l st : List Pt),
      List.foldl (fun st q => q :: popWhile q st) (st.map (translatePt tx ty))
          (l.map (translatePt tx ty)) =
        (List.foldl (fun st q => q :: popWhile q st) st l).map (translatePt tx ty)
  | [], _ => rfl
  | q :: l, st => by
      rw [List.map_cons, List.foldl_cons, List.foldl_cons]
      rw [show (translatePt tx ty q :: popWhile (translatePt tx ty q)
          (st.map (translatePt tx ty))) = ((q :: popWhile q st).map (translatePt tx ty)) by
        rw [List.map_cons, popWhile_translate]]
      exact chain_fold_translate tx ty l (q :: popWhile q st)

/-- chainOf commutes with translation. -/
theorem chainOf_translate (tx ty : ℝ) (l : List Pt) :
    chainOf (l.map (translatePt tx ty)) = (chainOf l).map (translatePt tx ty) :=
  chain_fold_translate tx ty l []

/-- convexHull commutes with translation. -/
theorem convexHull_translate (tx ty : ℝ) (l : List Pt) :
    convexHull (l.map (translatePt tx ty)) = (convexHull l).map (translatePt tx ty) := by
  by_cases h : l.length ≤ 3
  · rw [convexHull, if_pos (by simpa using h), convexHull, if_pos h]
  · rw [convexHull_eq_of_big _ (by simpa using h), convexHull_eq_of_big _ h,
      insertionSort_translate, ← List.map_reverse, chainOf_translate, chainOf_translate,
      ← List.map_tail, ← List.map_tail]
    simp

/-- The merged world collider depends only on position, rotation,
silhouette and radius. -/
theorem worldPoly_congr (innerWidth : ℝ) (a b : Asteroid) (hx : a.x = b.x) (hy : a.y = b.y)
    (hrot : a.rotation = b.rotation) (hv : a.vertices = b.vertices) (hr : a.r = b.r) :
    asteroidWorldPoly innerWidth a = asteroidWorldPoly innerWidth b := by
  simp only [asteroidWorldPoly, getLabelRect, hx, hy, hrot, hv, hr]

/-- Translating a body translates its merged world collider pointwise. -/
theorem worldPoly_translate (innerWidth tx ty : ℝ) (a : Asteroid) :
    asteroidWorldPoly innerWidth { a with x := a.x + tx, y := a.y + ty } =
      (asteroidWorldPoly innerWidth a).map (translatePt tx ty) := by
  simp only [asteroidWorldPoly, getLabelRect]
  rw [← convexHull_translate]
  congr 1
  rw [List.map_append]
  congr 1
  · rw [List.map_map]
    apply List.map_congr_left
    intro v _
    simp only [Function.comp_apply, translatePt, Pt.mk.injEq]
    constructor <;> ring
  · simp only [List.map_cons, List.map_nil, translatePt, Pt.mk.injEq, List.cons.injEq,
      and_true]
    refine ⟨⟨by ring, by ring⟩, ⟨by ring, by ring⟩, ⟨by ring, by ring⟩, by ring, by ring⟩

/-- Every member of a zipWith is an image of the combining function. -/
theorem mem_zipWith {α β γ : Type} {f : α → β → γ} {c : γ} :
    ∀ {l : List α} {l2 : List β}, c ∈ List.zipWith f l l2 → ∃ a b, c = f a b
  | [], _, h => absurd h (by simp)
  | _ :: _, [], h => absurd h (by simp)
  | a :: l, b :: l2, h => by
      rw [List.zipWith_cons_cons] at h
      rcases List.mem_cons.1 h with rfl | h
      · exact ⟨a, b, rfl⟩
      · exact mem_zipWith h

/-- normalize returns the zero vector or a unit vector. -/
theorem normalize_unit_or_zero (v : Pt) :
    normalize v = ⟨0, 0⟩ ∨ (normalize v).x ^ 2 + (normalize v).y ^ 2 = 1 := by
  by_cases h : Real.sqrt (v.x ^ 2 + v.y ^ 2) = 0
  · left
    have hle : v.x ^ 2 + v.y ^ 2 ≤ 0 := Real.sqrt_eq_zero'.1 h
    have hx : v.x = 0 := by nlinarith
    have hy : v.y = 0 := by nlinarith
    simp only [normalize, h, if_pos]
    rw [hx, hy]
    norm_num
  · right
    have harg : 0 < v.x ^ 2 + v.y ^ 2 := by
      rcases lt_or_eq_of_le (show (0 : ℝ) ≤ v.x ^ 2 + v.y ^ 2 by positivity) with h1 | h1
      · exact h1
      · rw [← h1] at h
        exact absurd Real.sqrt_zero h
    have hsq : Real.sqrt (v.x ^ 2 + v.y ^ 2) ^ 2 = v.x ^ 2 + v.y ^ 2 :=
      Real.sq_sqrt (by positivity)
    simp only [normalize]
    rw [if_neg h, div_pow, div_pow, div_add_div_same, hsq, div_self (ne_of_gt harg)]

/-- Projection onto the zero axis is degenerate. -/
theorem foldl_proj_zero :
    ∀ rest : List Pt,
      rest.foldl (fun mm q => (min mm.1 (dot q ⟨0, 0⟩), max mm.2 (dot q ⟨0, 0⟩)))
        ((0 : ℝ), (0 : ℝ)) = (0, 0)
  | [] => rfl
  | q :: rest => by
      rw [List.foldl_cons,
        show ((min (0 : ℝ) (dot q ⟨0, 0⟩), max (0 : ℝ) (dot q ⟨0, 0⟩)) : ℝ × ℝ) = (0, 0) by
          simp [dot]]
      exact foldl_proj_zero rest

/-- projectPoly on the zero axis returns (0, 0). -/
theorem projectPoly_zero : ∀ P : List Pt, projectPoly P ⟨0, 0⟩ = (0, 0)
  | [] => rfl
  | p :: rest => by
      rw [projectPoly, show dot p ⟨0, 0⟩ = 0 by simp [dot]]
      exact foldl_proj_zero rest

/-- The overlap on the zero axis is zero. -/
theorem ovOn_zero (A B : List Pt) : ovOn A B ⟨0, 0⟩ = 0 := by
  simp [ovOn, projectPoly_zero]

/-- Dot products after translation shift by the dot of the offset. -/
theorem dot_translate (tx ty : ℝ) (q ax : Pt) :
    dot (translatePt tx ty q) ax = dot q ax + dot ⟨tx, ty⟩ ax := by
  simp only [dot, translatePt]
  ring

/-- The projection fold after translation shifts both components. -/
theorem foldl_proj_translate (tx ty : ℝ) (ax : Pt) :
    ∀ (rest : List Pt) (m1 m2 : ℝ),
      (rest.map (translatePt tx ty)).foldl
          (fun mm q => (min mm.1 (dot q ax), max mm.2 (dot q ax)))
          (m1 + dot ⟨tx, ty⟩ ax, m2 + dot ⟨tx, ty⟩ ax) =
        ((rest.foldl (fun mm q => (min mm.1 (dot q ax), max mm.2 (dot q ax))) (m1, m2)).1 +
            dot ⟨tx, ty⟩ ax,
          (rest.foldl (fun mm q => (min mm.1 (dot q ax), max mm.2 (dot q ax))) (m1, m2)).2 +
            dot ⟨tx, ty⟩ ax)
  | [], m1, m2 => rfl
  | q :: rest, m1, m2 => by
      rw [List.map_cons, List.foldl_cons, List.foldl_cons,
        show ((min (m1 + dot ⟨tx, ty⟩ ax) (dot (translatePt tx ty q) ax),
            max (m2 + dot ⟨tx, ty⟩ ax) (dot (translatePt tx ty q) ax)) : ℝ × ℝ) =
          (min m1 (dot q ax) + dot ⟨tx, ty⟩ ax, max m2 (dot q ax) + dot ⟨tx, ty⟩ ax) by
          rw [dot_translate, min_add_add_right, max_add_add_right]]
      exact foldl_proj_translate tx ty ax rest (min m1 (dot q ax)) (max m2 (dot q ax))

/-- projectPoly after translation shifts both components (nonempty
polygon). -/
theorem projectPoly_translate (tx ty : ℝ) (ax : Pt) (P : List Pt) (hP : P ≠ []) :
    projectPoly (P.map (translatePt tx ty)) ax =
      ((projectPoly P ax).1 + dot ⟨tx, ty⟩ ax, (projectPoly P ax).2 + dot ⟨tx, ty⟩ ax) := by
  obtain ⟨p, rest, rfl⟩ := List.exists_cons_of_ne_nil hP
  rw [List.map_cons, projectPoly, projectPoly, dot_translate]
  exact foldl_proj_translate tx ty ax rest (dot p ax) (dot p ax)

/-- The projection fold on the negated axis swaps and negates. -/
theorem foldl_proj_neg (ax : Pt) :
    ∀ (rest : List Pt) (m1 m2 : ℝ),
      rest.foldl (fun mm q => (min mm.1 (dot q ⟨-ax.x, -ax.y⟩), max mm.2 (dot q ⟨-ax.x, -ax.y⟩)))
          (-m2, -m1) =
        (-(rest.foldl (fun mm q => (min mm.1 (dot q ax), max mm.2 (dot q ax))) (m1, m2)).2,
          -(rest.foldl (fun mm q => (min mm.1 (dot q ax), max mm.2 (dot q ax))) (m1, m2)).1)
  | [], m1, m2 => rfl
  | q :: rest, m1, m2 => by
      rw [List.foldl_cons, List.foldl_cons,
        show ((min (-m2) (dot q ⟨-ax.x, -ax.y⟩), max (-m1) (dot q ⟨-ax.x, -ax.y⟩)) : ℝ × ℝ) =
          (-max m2 (dot q ax), -min m1 (dot q ax)) by
          rw [show dot q ⟨-ax.x, -ax.y⟩ = -dot q ax by simp [dot]; ring, min_neg_neg,
            max_neg_neg]]
      exact foldl_proj_neg ax rest (min m1 (dot q ax)) (max m2 (dot q ax))

/-- projectPoly on the negated axis swaps and negates the interval. -/
theorem projectPoly_neg (ax : Pt) :
    ∀ P : List Pt,
      projectPoly P ⟨-ax.x, -ax.y⟩ = (-(projectPoly P ax).2, -(projectPoly P ax).1)
  | [] => by simp [projectPoly]
  | p :: rest => by
      rw [projectPoly, projectPoly, show dot p ⟨-ax.x, -ax.y⟩ = -dot p ax by simp [dot]; ring]
      exact foldl_proj_neg ax rest (dot p ax) (dot p ax)

/-- The overlap is invariant under negating the axis. -/
theorem ovOn_neg (A B : List Pt) (ax : Pt) : ovOn A B ⟨-ax.x, -ax.y⟩ = ovOn A B ax := by
  simp only [ovOn, projectPoly_neg]
  rw [min_neg_neg, max_neg_neg]
  ring

/-- The SAT axes of a translated polygon are those of the polygon. -/
theorem axesOf_map_translate (tx ty : ℝ) (l : List Pt) :
    axesOf (l.map (translatePt tx ty)) = axesOf l := by
  simp only [axesOf]
  rw [← List.map_rotate, List.zipWith_map]
  congr 1
  funext p1 p2
  congr 1
  simp only [translatePt, Pt.mk.injEq]
  constructor <;> ring

/-- If some listed axis has nonpositive overlap, the axis loop reports
separation regardless of the accumulator. -/
theorem runAxes_none_of_mem (A B : List Pt) :
    ∀ (axes : List Pt) (best : Option (ℝ × Pt)) (ax : Pt),
      ax ∈ axes → ovOn A B ax ≤ 0 → runAxes A B axes best = none
  | [], _, ax, hmem, _ => absurd hmem (List.not_mem_nil ax)
  | a :: rest, best, ax, hmem, hov => by
      by_cases h : ovOn A B a ≤ 0
      · simp only [runAxes]
        rw [if_pos (show min (projectPoly A a).2 (projectPoly B a).2 -
          max (projectPoly A a).1 (projectPoly B a).1 ≤ 0 from h)]
      · have hax : ax ∈ rest := by
          rcases List.mem_cons.1 hmem with rfl | hm
          · exact absurd hov h
          · exact hm
        simp only [runAxes]
        rw [if_neg (show ¬min (projectPoly A a).2 (projectPoly B a).2 -
          max (projectPoly A a).1 (projectPoly B a).1 ≤ 0 from h)]
        rcases best with _ | ⟨bo, bax⟩
        · exact runAxes_none_of_mem A B rest _ ax hax hov
        · show (if min (projectPoly A a).2 (projectPoly B a).2 -
              max (projectPoly A a).1 (projectPoly B a).1 < bo then
              runAxes A B rest (some (min (projectPoly A a).2 (projectPoly B a).2 -
                max (projectPoly A a).1 (projectPoly B a).1, a))
            else runAxes A B rest (some (bo, bax))) = none
          by_cases hlt : min (projectPoly A a).2 (projectPoly B a).2 -
              max (projectPoly A a).1 (projectPoly B a).1 < bo
          · rw [if_pos hlt]
            exact runAxes_none_of_mem A B rest _ ax hax hov
          · rw [if_neg hlt]
            exact runAxes_none_of_mem A B rest _ ax hax hov

/-- Inversion of the axis loop: a successful run returns either the
initial accumulator or a listed axis with its positive overlap. -/
theorem runAxes_some_spec (A B : List Pt) :
    ∀ (axes : List Pt) (best : Option (ℝ × Pt)) (bo : ℝ) (bax : Pt),
      runAxes A B axes best = some (some (bo, bax)) →
      best = some (bo, bax) ∨ (bax ∈ axes ∧ bo = ovOn A B bax ∧ 0 < bo)
  | [], best, bo, bax, h => by
      rw [runAxes_nil] at h
      left
      injection h
  | a :: rest, best, bo, bax, h => by
      by_cases hov : ovOn A B a ≤ 0
      · exfalso
        simp only [runAxes] at h
        rw [if_pos (show min (projectPoly A a).2 (projectPoly B a).2 -
          max (projectPoly A a).1 (projectPoly B a).1 ≤ 0 from hov)] at h
        exact absurd h (by simp)
      · have hpos : 0 < ovOn A B a := not_le.1 hov
        simp only [runAxes] at h
        rw [if_neg (show ¬min (projectPoly A a).2 (projectPoly B a).2 -
          max (projectPoly A a).1 (projectPoly B a).1 ≤ 0 from hov)] at h
        rcases best with _ | ⟨b0, x0⟩
        · simp only [] at h
          rcases runAxes_some_spec A B rest _ bo bax h with heq | ⟨hmem, hrest⟩
          · injection heq with heq
            right
            refine ⟨?_, ?_, ?_⟩
            · rw [show bax = a from congrArg Prod.snd heq.symm]
              exact List.mem_cons_self a rest
            · rw [show bax = a from congrArg Prod.snd heq.symm,
                show bo = ovOn A B a from congrArg Prod.fst heq.symm]
            · rw [show bo = ovOn A B a from congrArg Prod.fst heq.symm]
              exact hpos
          · exact Or.inr ⟨List.mem_cons_of_mem a hmem, hrest⟩
        · simp only [] at h
          by_cases hlt : min (projectPoly A a).2 (projectPoly B a).2 -
              max (projectPoly A a).1 (projectPoly B a).1 < b0
          · rw [if_pos hlt] at h
            rcases runAxes_some_spec A B rest _ bo bax h with heq | ⟨hmem, hrest⟩
            · injection heq with heq
              right
              refine ⟨?_, ?_, ?_⟩
              · rw [show bax = a from congrArg Prod.snd heq.symm]
                exact List.mem_cons_self a rest
              · rw [show bax = a from congrArg Prod.snd heq.symm,
                  show bo = ovOn A B a from congrArg Prod.fst heq.symm]
              · rw [show bo = ovOn A B a from congrArg Prod.fst heq.symm]
                exact hpos
            · exact Or.inr ⟨List.mem_cons_of_mem a hmem, hrest⟩
          · rw [if_neg hlt] at h
            rcases runAxes_some_spec A B rest _ bo bax h with heq | ⟨hmem, hrest⟩
            · left
              injection heq with heq
              rw [heq]
            · exact Or.inr ⟨List.mem_cons_of_mem a hmem, hrest⟩

/-- Inversion of satMTV: a returned MTV carries the overlap of some
listed axis, and its normal is that axis or its negation. -/
theorem satMTV_some_spec (A B : List Pt) (m : MTV)
    (h : satMTV A B = some m) :
    ∃ bax, bax ∈ axesOf A ++ axesOf B ∧ m.overlap = ovOn A B bax ∧ 0 < m.overlap ∧
      ((⟨m.nx, m.ny⟩ : Pt) = bax ∨ (⟨m.nx, m.ny⟩ : Pt) = ⟨-bax.x, -bax.y⟩) := by
  unfold satMTV at h
  rcases hr : runAxes A B (axesOf A ++ axesOf B) none with _ | ob
  · rw [hr] at h
    exact absurd h (by simp)
  · rcases ob with _ | ⟨bo, bax⟩
    · rw [hr] at h
      exact absurd h (by simp)
    · rw [hr] at h
      simp only [] at h
      rcases runAxes_some_spec A B _ none bo bax hr with heq | ⟨hmem, hov, hpos⟩
      · exact absurd heq (by simp)
      · refine ⟨bax, hmem, ?_⟩
        by_cases hd : dot ⟨(centroid B).x - (centroid A).x, (centroid B).y - (centroid A).y⟩
            bax < 0
        · rw [if_pos hd] at h
          injection h with h
          subst h
          exact ⟨hov, hpos, Or.inr rfl⟩
        · rw [if_neg hd] at h
          injection h with h
          subst h
          exact ⟨hov, hpos, Or.inl rfl⟩

/-- satMTV reports separation when some listed axis has nonpositive
overlap. -/
theorem satMTV_none_of_axis (A B : List Pt) (ax : Pt)
    (hmem : ax ∈ axesOf A ++ axesOf B) (hov : ovOn A B ax ≤ 0) : satMTV A B = none := by
  unfold satMTV
  rw [runAxes_none_of_mem A B _ none ax hmem hov]

/-- The pop loop never empties a nonempty stack. -/
theorem popWhile_ne_nil (p : Pt) : ∀ st : List Pt, st ≠ [] → popWhile p st ≠ []
  | [], h => absurd rfl h
  | [a], _ => by
      rw [show popWhile p [a] = [a] from rfl]
      simp
  | b :: a :: rest, _ => by
      rw [popWhile]
      split_ifs with h
      · exact popWhile_ne_nil p (a :: rest) (by simp)
      · simp

/-- The chain fold started from a nonempty stack with at least one more
point has length at least two. -/
theorem foldl_chain_len2 :
    ∀ (l : List Pt) (q : Pt) (st : List Pt), st ≠ [] →
      2 ≤ (List.foldl (fun st q => q :: popWhile q st) st (q :: l)).length
  | [], q, st, h => by
      rw [List.foldl_cons, List.foldl_nil, List.length_cons]
      have h1 : 0 < (popWhile q st).length := List.length_pos.2 (popWhile_ne_nil q st h)
      omega
  | q2 :: l, q, st, h => by
      rw [List.foldl_cons]
      exact foldl_chain_len2 l q2 (q :: popWhile q st) (by simp)

/-- A chain over at least two points has at least two vertices. -/
theorem chainOf_len2 (pts : List Pt) (h : 2 ≤ pts.length) : 2 ≤ (chainOf pts).length := by
  match pts, h with
  | p :: q :: rest, _ =>
      show 2 ≤ (List.foldl (fun st q => q :: popWhile q st) [] (p :: q :: rest)).length
      rw [List.foldl_cons]
      exact foldl_chain_len2 rest q (p :: popWhile p []) (by simp)

/-- The hull of at least four points is nonempty. -/
theorem convexHull_ne_nil (pts : List Pt) (h : 4 ≤ pts.length) : convexHull pts ≠ [] := by
  rw [convexHull_eq_of_big _ (by omega)]
  have hs : 2 ≤ (List.insertionSort ptLE pts).length := by
    rw [List.length_insertionSort]; omega
  have h1 := chainOf_len2 _ hs
  intro hc
  have h2 := (List.append_eq_nil.1 hc).1
  rw [List.reverse_eq_nil_iff] at h2
  have h3 := congrArg List.length h2
  rw [List.length_tail] at h3
  simp at h3
  omega

/-- A merged world collider is never empty (the label contributes four
corners). -/
theorem worldPoly_ne_nil (innerWidth : ℝ) (a : Asteroid) :
    asteroidWorldPoly innerWidth a ≠ [] := by
  apply convexHull_ne_nil
  rw [List.length_append]
  simp

/-- The merged world collider of a body with an empty silhouette is
exactly its label rectangle. -/
theorem worldPoly_label_only (innerWidth : ℝ) (a : Asteroid) (hv : a.vertices = []) :
    asteroidWorldPoly innerWidth a =
      rectPts (a.x - (getLabelDims innerWidth).1 / 2)
        (a.x - (getLabelDims innerWidth).1 / 2 + (getLabelDims innerWidth).1)
        (a.y + a.r + LABEL_GAP)
        (a.y + a.r + LABEL_GAP + (getLabelDims innerWidth).2) := by
  have hw : 0 < (getLabelDims innerWidth).1 := by
    simp only [getLabelDims]
    split_ifs <;> norm_num
  have hh : 0 < (getLabelDims innerWidth).2 := by
    simp only [getLabelDims]
    split_ifs <;> norm_num
  simp only [asteroidWorldPoly, hv, List.map_nil, List.nil_append, getLabelRect]
  exact convexHull_rect _ _ _ _ (by linarith) (by linarith)

/-- Field bookkeeping for the pair-correction step: impulses touch only
the drift, and the positions move by the symmetric pushes. -/
theorem applyPair_fields (A B : Asteroid) (m : MTV) :
    (applyPair A B m).1.x = A.x - m.nx * ((m.overlap + 0.25) * 0.5) ∧
    (applyPair A B m).1.y = A.y - m.ny * ((m.overlap + 0.25) * 0.5) ∧
    (applyPair A B m).1.rotation = A.rotation ∧
    (applyPair A B m).1.vertices = A.vertices ∧
    (applyPair A B m).1.r = A.r ∧
    (applyPair A B m).2.x = B.x + m.nx * ((m.overlap + 0.25) * 0.5) ∧
    (applyPair A B m).2.y = B.y + m.ny * ((m.overlap + 0.25) * 0.5) ∧
    (applyPair A B m).2.rotation = B.rotation ∧
    (applyPair A B m).2.vertices = B.vertices ∧
    (applyPair A B m).2.r = B.r := by
  simp only [applyPair]
  split_ifs <;> exact ⟨rfl, rfl, rfl, rfl, rfl, rfl, rfl, rfl, rfl, rfl⟩

/-- A body inside the clamp rectangle is left unchanged by
clampToBounds. -/
theorem clampToBounds_of_inClampBounds {innerWidth width height : ℝ} {a : Asteroid}
    (h : inClampBounds innerWidth width height a) :
    clampToBounds innerWidth width height a = a := by
  obtain ⟨h1, h2, h3, h4⟩ := h
  simp only [clampToBounds]
  rw [if_neg (not_lt.2 h1), if_neg (not_lt.2 h2), if_neg (not_lt.2 h3), if_neg (not_lt.2 h4)]

/-- Members of pairList n are ordered pairs of indices below n. -/
theorem mem_pairList {n : ℕ} {p : ℕ × ℕ} (h : p ∈ pairList n) : p.1 < p.2 ∧ p.2 < n := by
  simp only [pairList, List.mem_flatMap, List.mem_map, List.mem_filter, List.mem_range,
    decide_eq_true_eq] at h
  obtain ⟨i, hi, j, ⟨hj, hij⟩, hp⟩ := h
  subst hp
  exact ⟨hij, hj⟩

/-- A pair step whose SAT test reports separation changes nothing. -/
theorem pairStep_of_sep {innerWidth : ℝ} {l : List Asteroid} {i j : ℕ}
    (h : satMTV (asteroidWorldPoly innerWidth (l.getD i default))
      (asteroidWorldPoly innerWidth (l.getD j default)) = none) :
    pairStep innerWidth l i j = l := by
  simp only [pairStep, h]

/-- Folding pair steps that all act as the identity is the identity. -/
theorem foldl_pairStep_id (innerWidth : ℝ) (l : List Asteroid) :
    ∀ L : List (ℕ × ℕ), (∀ p ∈ L, pairStep innerWidth l p.1 p.2 = l) →
      L.foldl (fun acc ij => pairStep innerWidth acc ij.1 ij.2) l = l
  | [], _ => rfl
  | p :: L, h => by
      rw [List.foldl_cons, h p (List.mem_cons_self p L)]
      exact foldl_pairStep_id innerWidth l L (fun q hq => h q (List.mem_cons_of_mem p hq))

/-- Mapping a function that fixes every member is the identity. -/
theorem map_of_forall_eq {α : Type} (f : α → α) :
    ∀ l : List α, (∀ a ∈ l, f a = a) → l.map f = l
  | [], _ => rfl
  | a :: l, h => by
      rw [List.map_cons, h a (List.mem_cons_self a l),
        map_of_forall_eq f l (fun b hb => h b (List.mem_cons_of_mem a hb))]

/-- Scan characterization of hitTestGo returning some body. -/
theorem hitTestGo_eq_some_iff (x y : ℝ) (a : Asteroid) :
    ∀ l : List Asteroid,
      hitTestGo x y l = some a ↔
        ∃ pre post, l = pre ++ a :: post ∧ hitP x y a ∧ ∀ b ∈ pre, ¬hitP x y b := by
  intro l
  induction l with
  | nil =>
      simp only [hitTestGo]
      constructor
      · intro h; exact absurd h (by simp)
      · rintro ⟨pre, post, heq, -, -⟩
        exact absurd heq.symm (by simp)
  | cons c rest ih =>
      by_cases hc : hitP x y c
      · have hc2 : Real.sqrt ((x - c.x) ^ 2 + (y - c.y) ^ 2) < c.r + 12 := hc
        rw [hitTestGo, if_pos hc2]
        constructor
        · intro h
          injection h with h
          subst h
          exact ⟨[], rest, rfl, hc, by simp⟩
        · rintro ⟨pre, post, heq, ha, hpre⟩
          cases pre with
          | nil =>
              simp only [List.nil_append, List.cons.injEq] at heq
              rw [heq.1]
          | cons d pre2 =>
              simp only [List.cons_append, List.cons.injEq] at heq
              exact absurd (heq.1 ▸ hc) (hpre d (List.mem_cons_self d pre2))
      · have hc2 : ¬Real.sqrt ((x - c.x) ^ 2 + (y - c.y) ^ 2) < c.r + 12 := hc
        rw [hitTestGo, if_neg hc2, ih]
        constructor
        · rintro ⟨pre, post, heq, ha, hpre⟩
          refine ⟨c :: pre, post, by simp [heq], ha, ?_⟩
          intro b hb
          rcases List.mem_cons.1 hb with hb | hb
          · exact hb ▸ hc
          · exact hpre b hb
        · rintro ⟨pre, post, heq, ha, hpre⟩
          cases pre with
          | nil =>
              simp only [List.nil_append, List.cons.injEq] at heq
              exact absurd (heq.1 ▸ ha) hc
          | cons d pre2 =>
              simp only [List.cons_append, List.cons.injEq] at heq
              exact ⟨pre2, post, heq.2, ha, fun b hb => hpre b (List.mem_cons_of_mem d hb)⟩

/-- Scan characterization of hitTestGo returning no body. -/
theorem hitTestGo_eq_none_iff (x y : ℝ) :
    ∀ l : List Asteroid, hitTestGo x y l = none ↔ ∀ b ∈ l, ¬hitP x y b := by
  intro l
  induction l with
  | nil => simp [hitTestGo]
  | cons c rest ih =>
      by_cases hc : hitP x y c
      · have hc2 : Real.sqrt ((x - c.x) ^ 2 + (y - c.y) ^ 2) < c.r + 12 := hc
        rw [hitTestGo, if_pos hc2]
        simp only [List.mem_cons]
        constructor
        · intro h; exact absurd h (by simp)
        · intro h; exact absurd hc (h c (Or.inl rfl))
      · have hc2 : ¬Real.sqrt ((x - c.x) ^ 2 + (y - c.y) ^ 2) < c.r + 12 := hc
        rw [hitTestGo, if_neg hc2, ih]
        simp only [List.mem_cons]
        constructor
        · rintro h b (rfl | hb)
          · exact hc
          · exact h b hb
        · intro h b hb; exact h b (Or.inr hb)

theorem pt_ext {a b : Pt} (hx : a.x = b.x) (hy : a.y = b.y) : a = b := by
  cases a; cases b; simp_all

theorem ptLT_of_ptLE_ne {a b : Pt} (h : ptLE a b) (hne : a ≠ b) : ptLT a b := by
  rcases h with h | ⟨hx, hy⟩
  · exact Or.inl h
  · rcases lt_or_eq_of_le hy with h2 | h2
    · exact Or.inr ⟨hx, h2⟩
    · exact absurd (pt_ext hx h2) hne

theorem ptLT_ne {a b : Pt} (h : ptLT a b) : a ≠ b := by
  rintro rfl
  rcases h with h | ⟨-, h⟩ <;> exact lt_irrefl _ h

theorem ptLE_of_ptLT {a b : Pt} (h : ptLT a b) : ptLE a b := by
  rcases h with h | ⟨hx, hy⟩
  · exact Or.inl h
  · exact Or.inr ⟨hx, hy.le⟩

theorem ptLE_trans_thm {a b c : Pt} (h1 : ptLE a b) (h2 : ptLE b c) : ptLE a c := by
  rcases h1 with h1 | ⟨hx1, hy1⟩ <;> rcases h2 with h2 | ⟨hx2, hy2⟩
  · exact Or.inl (h1.trans h2)
  · exact Or.inl (hx2 ▸ h1)
  · exact Or.inl (hx1 ▸ h2)
  · exact Or.inr ⟨hx1.trans hx2, hy1.trans hy2⟩

theorem ptLE_total_thm (a b : Pt) : ptLE a b ∨ ptLE b a := by
  rcases lt_trichotomy a.x b.x with h | h | h
  · exact Or.inl (Or.inl h)
  · rcases le_total a.y b.y with h2 | h2
    · exact Or.inl (Or.inr ⟨h, h2⟩)
    · exact Or.inr (Or.inr ⟨h.symm, h2⟩)
  · exact Or.inr (Or.inl h)

instance : IsTotal Pt ptLE := ⟨ptLE_total_thm⟩

instance : IsTrans Pt ptLE := ⟨fun _ _ _ => ptLE_trans_thm⟩

theorem ptLE_x {a b : Pt} (h : ptLE a b) : a.x ≤ b.x := by
  rcases h with h | ⟨hx, -⟩
  · exact h.le
  · exact hx.le

theorem ptLE_antisymm_thm {a b : Pt} (h1 : ptLE a b) (h2 : ptLE b a) : a = b := by
  have hx := ptLE_x h1
  have hx2 := ptLE_x h2
  have hxe : a.x = b.x := le_antisymm hx hx2
  rcases h1 with h1 | ⟨-, hy1⟩
  · exact absurd hxe (ne_of_lt h1)
  · rcases h2 with h2 | ⟨-, hy2⟩
    · exact absurd hxe.symm (ne_of_lt h2)
    · exact pt_ext hxe (le_antisymm hy1 hy2)

theorem cross_self_right (o a : Pt) : cross o a a = 0 := by
  simp only [cross]; ring

theorem cross_self_outer (o a : Pt) : cross o a o = 0 := by
  simp only [cross]; ring

/-- Turn propagation: a strict left turn (a, b, c) followed by q weakly
left of edge (b, c), with x-monotone lex order, puts q weakly left of the
lower edge (a, b) too. -/
theorem turn_prop {a b c q : Pt} (h1 : 0 < cross a b c) (h2 : 0 ≤ cross b c q)
    (hab : ptLE a b) (hbc : ptLE b c) (hcq : ptLE c q) : 0 ≤ cross a b q := by
  have hux : 0 ≤ b.x - a.x := by have := ptLE_x hab; linarith
  have hvx : 0 ≤ c.x - b.x := by have := ptLE_x hbc; linarith
  have hwx : 0 ≤ q.x - c.x := by have := ptLE_x hcq; linarith
  have h1' : 0 < (b.x - a.x) * (c.y - b.y) - (b.y - a.y) * (c.x - b.x) := by
    have : cross a b c = (b.x - a.x) * (c.y - b.y) - (b.y - a.y) * (c.x - b.x) := by
      simp only [cross]; ring
    linarith [this ▸ h1]
  have h2' : 0 ≤ (c.x - b.x) * (q.y - c.y) - (c.y - b.y) * (q.x - c.x) := by
    have : cross b c q = (c.x - b.x) * (q.y - c.y) - (c.y - b.y) * (q.x - c.x) := by
      simp only [cross]; ring
    linarith [this ▸ h2]
  have hgoal : cross a b q =
      ((b.x - a.x) * (c.y - b.y) - (b.y - a.y) * (c.x - b.x)) +
      ((b.x - a.x) * (q.y - c.y) - (b.y - a.y) * (q.x - c.x)) := by
    simp only [cross]; ring
  rcases lt_or_eq_of_le hvx with hvpos | hveq
  · have key : 0 ≤ (c.x - b.x) * ((b.x - a.x) * (q.y - c.y) - (b.y - a.y) * (q.x - c.x)) := by
      nlinarith [mul_nonneg hwx h1'.le, mul_nonneg hux h2']
    have : 0 ≤ (b.x - a.x) * (q.y - c.y) - (b.y - a.y) * (q.x - c.x) :=
      nonneg_of_mul_nonneg_right key hvpos
    linarith
  · have hcx : c.x = b.x := by linarith
    rw [show c.x - b.x = (0 : ℝ) from hveq.symm] at h1' h2'
    have h1'' : 0 < (b.x - a.x) * (c.y - b.y) := by nlinarith [h1']
    have h2'' : (c.y - b.y) * (q.x - c.x) ≤ 0 := by nlinarith [h2']
    have huxp : 0 < b.x - a.x := by
      rcases lt_or_eq_of_le hux with h | h
      · exact h
      · exfalso; rw [← h] at h1''; nlinarith [h1'']
    have hvy : 0 < c.y - b.y := by nlinarith [h1'']
    have hwx0 : q.x - c.x = 0 := by
      have : q.x - c.x ≤ 0 := by nlinarith [h2'']
      linarith
    have hwy : 0 ≤ q.y - c.y := by
      rcases hcq with h | ⟨-, h⟩
      · exfalso; linarith
      · linarith
    rw [hgoal]
    have hz2 : (b.y - a.y) * (q.x - c.x) = 0 := by rw [hwx0]; ring
    have hz3 : 0 ≤ (b.x - a.x) * (q.y - c.y) := mul_nonneg huxp.le hwy
    have hz4 : (b.y - a.y) * (c.x - b.x) = 0 := by rw [show c.x - b.x = (0 : ℝ) from hveq.symm]; ring
    linarith [h1'', hz2, hz3, hz4]

/-- Pop edge: if q is weakly right of edge (t, u) and p weakly left of it,
with t lex-least among the three others, then p is weakly left of the new
edge (t, q). -/
theorem pop_edge {t u q p : Pt} (htu : ptLT t u) (hq : cross t u q ≤ 0)
    (hp : 0 ≤ cross t u p) (hpt : ptLE t p) (hqt : ptLE t q) : 0 ≤ cross t q p := by
  have hux : 0 ≤ u.x - t.x := by have := ptLE_x (ptLE_of_ptLT htu); linarith
  have hpx : 0 ≤ p.x - t.x := by have := ptLE_x hpt; linarith
  have hqx : 0 ≤ q.x - t.x := by have := ptLE_x hqt; linarith
  have hq' : (u.x - t.x) * (q.y - t.y) - (u.y - t.y) * (q.x - t.x) ≤ 0 := hq
  have hp' : 0 ≤ (u.x - t.x) * (p.y - t.y) - (u.y - t.y) * (p.x - t.x) := hp
  show 0 ≤ (q.x - t.x) * (p.y - t.y) - (q.y - t.y) * (p.x - t.x)
  rcases lt_or_eq_of_le hux with huxp | huxe
  · have key : 0 ≤ (u.x - t.x) * ((q.x - t.x) * (p.y - t.y) - (q.y - t.y) * (p.x - t.x)) := by
      nlinarith [mul_nonneg hqx hp', mul_nonneg hpx (neg_nonneg.2 hq')]
    exact nonneg_of_mul_nonneg_right key huxp
  · have huy : 0 < u.y - t.y := by
      rcases htu with h | ⟨-, h⟩
      · exfalso; linarith
      · linarith
    rw [show u.x - t.x = (0 : ℝ) from huxe.symm] at hp'
    have hp'' : (u.y - t.y) * (p.x - t.x) ≤ 0 := by nlinarith [hp']
    have hpx0 : p.x - t.x = 0 := by
      have : p.x - t.x ≤ 0 := by nlinarith [hp'']
      linarith
    have hpy : 0 ≤ p.y - t.y := by
      rcases hpt with h | ⟨-, h⟩
      · exfalso; linarith
      · linarith
    have hz : (q.y - t.y) * (p.x - t.x) = 0 := by rw [hpx0]; ring
    have hz2 : 0 ≤ (q.x - t.x) * (p.y - t.y) := mul_nonneg hqx hpy
    linarith [hz, hz2]

/-- Top edge: if q and p are both weakly left of edge (a, b), with p lex
at most b and q lex at least b, then p is weakly left of the new edge
(b, q). -/
theorem top_edge {a b q p : Pt} (hab : ptLT a b) (hq : 0 ≤ cross a b q)
    (hp : 0 ≤ cross a b p) (hpb : ptLE p b) (hbq : ptLE b q) : 0 ≤ cross b q p := by
  have hax : 0 ≤ b.x - a.x := by have := ptLE_x (ptLE_of_ptLT hab); linarith
  have hpx : p.x - b.x ≤ 0 := by have := ptLE_x hpb; linarith
  have hqx : 0 ≤ q.x - b.x := by have := ptLE_x hbq; linarith
  have hq' : 0 ≤ (b.x - a.x) * (q.y - b.y) - (b.y - a.y) * (q.x - b.x) := by
    have : cross a b q = (b.x - a.x) * (q.y - b.y) - (b.y - a.y) * (q.x - b.x) := by
      simp only [cross]; ring
    linarith [this ▸ hq]
  have hp' : 0 ≤ (b.x - a.x) * (p.y - b.y) - (b.y - a.y) * (p.x - b.x) := by
    have : cross a b p = (b.x - a.x) * (p.y - b.y) - (b.y - a.y) * (p.x - b.x) := by
      simp only [cross]; ring
    linarith [this ▸ hp]
  show 0 ≤ (q.x - b.x) * (p.y - b.y) - (q.y - b.y) * (p.x - b.x)
  rcases lt_or_eq_of_le hax with haxp | haxe
  · have key : 0 ≤ (b.x - a.x) * ((q.x - b.x) * (p.y - b.y) - (q.y - b.y) * (p.x - b.x)) := by
      nlinarith [mul_nonneg hqx hp', mul_nonneg (neg_nonneg.2 hpx) hq']
    exact nonneg_of_mul_nonneg_right key haxp
  · have hay : 0 < b.y - a.y := by
      rcases hab with h | ⟨-, h⟩
      · exfalso; linarith
      · linarith
    rw [show b.x - a.x = (0 : ℝ) from haxe.symm] at hq'
    have hq'' : (b.y - a.y) * (q.x - b.x) ≤ 0 := by nlinarith [hq']
    have hqx0 : q.x - b.x = 0 := by
      have : q.x - b.x ≤ 0 := by nlinarith [hq'']
      linarith
    have hqy : 0 ≤ q.y - b.y := by
      rcases hbq with h | ⟨-, h⟩
      · exfalso; linarith
      · linarith
    have hz : (q.x - b.x) * (p.y - b.y) = 0 := by rw [hqx0]; ring
    have hz2 : 0 ≤ (q.y - b.y) * (-(p.x - b.x)) := mul_nonneg hqy (neg_nonneg.2 hpx)
    nlinarith [hz, hz2]

theorem getLast_cons_ne_nil {a : Pt} {l : List Pt} (h : l ≠ []) :
    (a :: l).getLast? = l.getLast? := by
  cases l with
  | nil => exact absurd rfl h
  | cons b t => simp [List.getLast?_cons_cons]

theorem popWhile_suffix (q : Pt) : ∀ st : List Pt, popWhile q st <:+ st
  | [] => by rw [show popWhile q [] = [] from rfl]
  | [a] => by rw [show popWhile q [a] = [a] from rfl]
  | b :: a :: rest => by
      rw [popWhile]
      split_ifs with h
      · exact (popWhile_suffix q (a :: rest)).trans (List.suffix_cons b (a :: rest))
      · exact List.suffix_refl _

theorem popWhile_stop (q : Pt) : ∀ (st : List Pt) (b a : Pt) (rest : List Pt),
    popWhile q st = b :: a :: rest → 0 < cross a b q
  | [], b, a, rest => by
      intro h
      rw [show popWhile q [] = [] from rfl] at h
      exact absurd h (by simp)
  | [x], b, a, rest => by
      intro h
      rw [show popWhile q [x] = [x] from rfl] at h
      exact absurd h (by simp)
  | c :: d :: rest', b, a, rest => by
      intro h
      rw [popWhile] at h
      split_ifs at h with hc
      · exact popWhile_stop q (d :: rest') b a rest h
      · injection h with h1 h2
        injection h2 with h3 h4
        subst h1; subst h3
        exact lt_of_not_le hc

theorem popWhile_progress (q : Pt) : ∀ st : List Pt,
    popWhile q st = st ∨
    ∃ u t rest2, popWhile q st = t :: rest2 ∧ (u :: t :: rest2) <:+ st ∧ cross t u q ≤ 0
  | [] => Or.inl rfl
  | [x] => Or.inl rfl
  | b :: a :: rest => by
      rw [popWhile]
      split_ifs with h
      · rcases popWhile_progress q (a :: rest) with heq | ⟨u, t, r2, he, hsuf, hcr⟩
        · exact Or.inr ⟨b, a, rest, heq, List.suffix_refl _, h⟩
        · exact Or.inr ⟨u, t, r2, he,
            hsuf.trans (List.suffix_cons b (a :: rest)), hcr⟩
      · exact Or.inl rfl

theorem rel_of_infix_pair {r : Pt → Pt → Prop} {x y : Pt} {l : List Pt}
    (h : [x, y] <:+: l) (hp : l.Pairwise r) : r x y := by
  have h2 := hp.sublist h.sublist
  rcases List.pairwise_cons.1 h2 with ⟨h3, -⟩
  exact h3 y (by simp)

theorem stack_pair_lt {x y : Pt} {l : List Pt} (h : [x, y] <:+: l)
    (hp : l.Pairwise (fun a b => ptLT b a)) : ptLT y x := by
  have h2 := hp.sublist h.sublist
  rcases List.pairwise_cons.1 h2 with ⟨h3, -⟩
  exact h3 y (by simp)

theorem sorted_pair_lt {x y : Pt} {l : List Pt} (h : [x, y] <:+: l)
    (hp : l.Pairwise ptLT) : ptLT x y :=
  rel_of_infix_pair h hp

theorem pair_infix_cons {x y a : Pt} {l : List Pt} (h : [x, y] <:+: a :: l) :
    (x = a ∧ ∃ r, l = y :: r) ∨ [x, y] <:+: l := by
  rcases List.infix_cons_iff.1 h with h | h
  · left
    rcases List.cons_prefix_cons.1 h with ⟨rfl, h2⟩
    rcases h2 with ⟨r, hr⟩
    exact ⟨rfl, r, hr.symm⟩
  · exact Or.inr h

theorem triple_infix_cons {x y z a : Pt} {l : List Pt} (h : [x, y, z] <:+: a :: l) :
    (x = a ∧ ∃ r, l = y :: z :: r) ∨ [x, y, z] <:+: l := by
  rcases List.infix_cons_iff.1 h with h | h
  · left
    rcases List.cons_prefix_cons.1 h with ⟨rfl, h2⟩
    rcases h2 with ⟨r, hr⟩
    exact ⟨rfl, r, hr.symm⟩
  · exact Or.inr h

theorem aboveI_mono {p : Pt} {st st' : List Pt} (h : aboveI p st) (hs : st' <:+: st) :
    aboveI p st' :=
  fun u v hin => h u v (hin.trans hs)

theorem convexI_mono {st st' : List Pt} (h : convexI st) (hs : st' <:+: st) :
    convexI st' :=
  fun a b c hin => h a b c (hin.trans hs)

theorem aboveI_short {p : Pt} {st : List Pt} (h : st.length ≤ 1) : aboveI p st := by
  intro u v hin
  have := hin.sublist.length_le
  simp at this
  omega

theorem convexI_short {st : List Pt} (h : st.length ≤ 2) : convexI st := by
  intro a b c hin
  have := hin.sublist.length_le
  simp at this
  omega

theorem ptLE_getLast_of_pairwise : ∀ {l : List Pt}, l.Pairwise ptLT →
    ∀ {t : Pt}, l.getLast? = some t → ∀ p ∈ l, ptLE p t
  | [] => by intro _ t h; simp at h
  | [x] => by
      intro _ t h p hp
      simp at h hp
      subst h; subst hp
      exact Or.inr ⟨rfl, le_refl _⟩
  | x :: y :: r => by
      intro hpw t h p hp
      rcases List.pairwise_cons.1 hpw with ⟨hx, hpw2⟩
      rw [getLast_cons_ne_nil (by simp)] at h
      rcases List.mem_cons.1 hp with rfl | hp2
      · exact ptLE_of_ptLT (hx t (List.mem_of_mem_getLast? h))
      · exact ptLE_getLast_of_pairwise hpw2 h p hp2

/-- Extending the left-of property of a new point down a convex chain:
once q is weakly left of the top edge, turn propagation puts it weakly
left of every edge. -/
theorem chain_ext (q : Pt) : ∀ st : List Pt, convexI st →
    st.Pairwise (fun a b => ptLT b a) →
    (∀ y ∈ st, ptLT y q) →
    (∀ t t2 r, st = t :: t2 :: r → 0 ≤ cross t2 t q) →
    aboveI q st
  | [] => fun _ _ _ _ => aboveI_short (by simp)
  | [x] => fun _ _ _ _ => aboveI_short (by simp)
  | t :: t2 :: r => fun hconv hdec hall htop => by
      have htail : (t2 :: r) <:+: t :: t2 :: r := (List.suffix_cons t (t2 :: r)).isInfix
      have hrec : aboveI q (t2 :: r) := by
        refine chain_ext q (t2 :: r) (convexI_mono hconv htail)
          (hdec.sublist htail.sublist)
          (fun y hy => hall y (List.mem_cons_of_mem t hy)) ?_
        intro s s2 r2 he
        rcases r with - | ⟨t3, r3⟩
        · simp at he
        · injection he with h1 h2
          injection h2 with h3 h4
          subst h1; subst h3
          have hc1 : 0 < cross t3 t2 t := hconv t3 t2 t ⟨[], r3, rfl⟩
          have hc2 : 0 ≤ cross t2 t q := htop t t2 (t3 :: r3) rfl
          have hab : ptLE t3 t2 := ptLE_of_ptLT (stack_pair_lt
            (show [t2, t3] <:+: t :: t2 :: t3 :: r3 from ⟨[t], r3, rfl⟩) hdec)
          have hbc : ptLE t2 t := ptLE_of_ptLT (stack_pair_lt
            (show [t, t2] <:+: t :: t2 :: t3 :: r3 from ⟨[], t3 :: r3, rfl⟩) hdec)
          have hcq : ptLE t q := ptLE_of_ptLT (hall t (List.mem_cons_self t _))
          exact turn_prop hc1 hc2 hab hbc hcq
      intro u v hin
      rcases pair_infix_cons hin with ⟨hv, r2, hr⟩ | hin2
      · injection hr with h1 h2
        rw [hv, ← h1]
        exact htop t t2 r rfl
      · exact hrec u v hin2

theorem push_step {p0 q : Pt} {processed st : List Pt}
    (inv : ChainInv p0 processed st)
    (hproc : processed.Pairwise ptLT)
    (hp0 : ∀ p ∈ processed, ptLE p0 p)
    (hq : ∀ p ∈ processed, ptLT p q) :
    ChainInv p0 (processed ++ [q]) (q :: popWhile q st) := by
  set st' := popWhile q st with hst'
  have hsuf : st' <:+ st := popWhile_suffix q st
  have hne' : st' ≠ [] := popWhile_ne_nil q st inv.hne
  have hmem' : ∀ y ∈ st', y ∈ processed := fun y hy => inv.hmem y (hsuf.sublist.subset hy)
  have hstop : ∀ b a rest, st' = b :: a :: rest → 0 < cross a b q :=
    fun b a rest h => popWhile_stop q st b a rest h
  have hqmem : ∀ y ∈ st', ptLT y q := fun y hy => hq y (hmem' y hy)
  have hconv' : convexI st' := convexI_mono inv.hconv hsuf.isInfix
  have hdec' : st'.Pairwise (fun a b => ptLT b a) := inv.hdec.sublist hsuf.sublist
  have habove' : ∀ p ∈ processed, aboveI p st' :=
    fun p hp => aboveI_mono (inv.habove p hp) hsuf.isInfix
  have hqabove : aboveI q st' :=
    chain_ext q st' hconv' hdec' hqmem
      (fun t t2 r he => (hstop t t2 r he).le)
  -- the new edge from the stack top to q keeps every processed point left
  have hnew : ∀ t r2, st' = t :: r2 → ∀ p ∈ processed, 0 ≤ cross t q p := by
    intro t r2 hr p hp
    have htq : ptLE t q := ptLE_of_ptLT (hq t (hmem' t (hr ▸ List.mem_cons_self t r2)))
    rcases ptLE_total_thm t p with hpt | hpt2
    · -- p is lex at or beyond the stack top
      rcases popWhile_progress q st with heq | ⟨u, t'', rest2, he, hsuf2, hcr⟩
      · -- no pop: the top is the lex-greatest processed point, so p = t
        have hse : st = t :: r2 := by rw [← heq, ← hst', hr]
        have hht : st.head? = some t := by rw [hse]; rfl
        rw [inv.hhead] at hht
        have hpt3 : ptLE p t := ptLE_getLast_of_pairwise hproc hht p hp
        have hpe : p = t := ptLE_antisymm_thm hpt3 hpt
        rw [hpe]
        exact le_of_eq (cross_self_outer t q).symm
      · -- a pop happened: use the last popped edge
        have hte : t'' = t := by
          rw [← hst'] at he
          rw [he] at hr
          injection hr with h1 h2
        rw [hte] at hcr hsuf2
        have hpair : [u, t] <:+: st :=
          (show [u, t] <+: u :: t :: rest2 from ⟨rest2, rfl⟩).isInfix.trans hsuf2.isInfix
        have htu : ptLT t u := stack_pair_lt hpair inv.hdec
        have hp2 : 0 ≤ cross t u p := inv.habove p hp t u hpair
        exact pop_edge htu hcr hp2 hpt htq
    · -- p is lex at or before the stack top
      rcases r2 with - | ⟨t2, r3⟩
      · -- singleton stack: top is the lex-least point
        have hlast' : st'.getLast? = some p0 := by
          rcases hsuf with ⟨w, hw⟩
          rw [← inv.hlast, ← hw, List.getLast?_append_of_ne_nil _ hne']
        rw [hr] at hlast'
        simp at hlast'
        subst hlast'
        have hpe : p = t := ptLE_antisymm_thm hpt2 (hp0 p hp)
        rw [hpe]
        exact le_of_eq (cross_self_outer t q).symm
      · have hstp : 0 < cross t2 t q := hstop t t2 r3 hr
        have hpr : [t, t2] <:+: st' := by
          rw [hr]
          exact ⟨[], r3, rfl⟩
        have hab : ptLT t2 t := stack_pair_lt hpr hdec'
        have hp3 : 0 ≤ cross t2 t p := habove' p hp t2 t hpr
        exact top_edge hab hstp.le hp3 hpt2 htq
  refine ⟨by simp, ?_, ?_, ?_, ?_, ?_, ?_⟩
  · simp
  · rw [show (q :: st').getLast? = st'.getLast? from getLast_cons_ne_nil hne']
    rcases hsuf with ⟨w, hw⟩
    rw [← inv.hlast, ← hw, List.getLast?_append_of_ne_nil _ hne']
  · intro y hy
    rcases List.mem_cons.1 hy with rfl | hy2
    · simp
    · exact List.mem_append_left _ (hmem' y hy2)
  · exact List.pairwise_cons.2 ⟨hqmem, hdec'⟩
  · intro a b c hin
    rcases triple_infix_cons hin with ⟨rfl, r, hr⟩ | hin2
    · exact hstop b a r hr
    · exact hconv' a b c hin2
  · intro p hp u v hin
    rcases List.mem_append.1 hp with hp2 | hp2
    · rcases pair_infix_cons hin with ⟨rfl, r2, hr⟩ | hin2
      · exact hnew u r2 hr p hp2
      · exact habove' p hp2 u v hin2
    · have hp3 : p = q := by simpa using hp2
      subst hp3
      rcases pair_infix_cons hin with ⟨rfl, r2, hr⟩ | hin2
      · rw [cross_self_right]
      · exact hqabove u v hin2

theorem chainInv_fold {p0 : Pt} : ∀ (rest processed st : List Pt),
    ChainInv p0 processed st →
    (processed ++ rest).Pairwise ptLT →
    (∀ p ∈ processed, ptLE p0 p) →
    ChainInv p0 (processed ++ rest)
      (rest.foldl (fun st q => q :: popWhile q st) st)
  | [], processed, st, inv, _, _ => by simpa using inv
  | q :: rest', processed, st, inv, hpair, hp0 => by
      have hsplit := List.pairwise_append.1 hpair
      have hq : ∀ p ∈ processed, ptLT p q :=
        fun p hp => hsplit.2.2 p hp q (List.mem_cons_self q rest')
      have step := push_step inv hsplit.1 hp0 hq
      have hp0' : ∀ p ∈ processed ++ [q], ptLE p0 p := by
        intro p hp
        rcases List.mem_append.1 hp with hp2 | hp2
        · exact hp0 p hp2
        · have hp3 : p = q := by simpa using hp2
          subst hp3
          have hp0m : p0 ∈ processed :=
            inv.hmem p0 (List.mem_of_mem_getLast? inv.hlast)
          exact ptLE_of_ptLT (hq p0 hp0m)
      have hpair' : ((processed ++ [q]) ++ rest').Pairwise ptLT := by
        rw [List.append_assoc]
        simpa using hpair
      have rec := chainInv_fold rest' (processed ++ [q]) (q :: popWhile q st)
        step hpair' hp0'
      rw [List.append_assoc] at rec
      simpa using rec

theorem chainOf_inv (p0 : Pt) (S' : List Pt) (hS : (p0 :: S').Pairwise ptLT) :
    ChainInv p0 (p0 :: S') (chainOf (p0 :: S')) := by
  have base : ChainInv p0 [p0] [p0] := by
    refine ⟨by simp, by simp, by simp, by simp, by simp, convexI_short (by simp),
      fun p hp => aboveI_short (by simp)⟩
  have hfold := chainInv_fold S' [p0] [p0] base (by simpa using hS)
    (fun p hp => by simp at hp; subst hp; exact Or.inr ⟨rfl, le_refl _⟩)
  simpa [chainOf, List.foldl] using hfold

theorem cross_negPt (o a b : Pt) : cross (negPt o) (negPt a) (negPt b) = cross o a b := by
  simp only [cross, negPt]; ring

theorem negPt_invol (p : Pt) : negPt (negPt p) = p := by
  simp [negPt]

theorem map_negPt_invol (l : List Pt) : (l.map negPt).map negPt = l := by
  rw [List.map_map]
  have : negPt ∘ negPt = id := by
    funext p
    simp [negPt_invol]
  rw [this, List.map_id]

theorem ptLT_negPt {a b : Pt} : ptLT (negPt a) (negPt b) ↔ ptLT b a := by
  simp only [ptLT, negPt]
  constructor
  · rintro (h | ⟨h1, h2⟩)
    · exact Or.inl (by linarith)
    · exact Or.inr ⟨by linarith, by linarith⟩
  · rintro (h | ⟨h1, h2⟩)
    · exact Or.inl (by linarith)
    · exact Or.inr ⟨by linarith, by linarith⟩

theorem popWhile_negPt (q : Pt) : ∀ st : List Pt,
    popWhile (negPt q) (st.map negPt) = (popWhile q st).map negPt
  | [] => rfl
  | [a] => rfl
  | b :: a :: rest => by
      rw [List.map_cons, List.map_cons, popWhile, popWhile, cross_negPt]
      split_ifs with h
      · rw [← List.map_cons]
        exact popWhile_negPt q (a :: rest)
      · rw [← List.map_cons, ← List.map_cons]

theorem chain_fold_negPt : ∀ (l st : List Pt),
    (l.map negPt).foldl (fun st q => q :: popWhile q st) (st.map negPt) =
      (l.foldl (fun st q => q :: popWhile q st) st).map negPt
  | [], st => rfl
  | q :: l, st => by
      rw [List.map_cons, List.foldl_cons, List.foldl_cons]
      rw [show (negPt q :: popWhile (negPt q) (List.map negPt st)) =
        List.map negPt (q :: popWhile q st) by rw [List.map_cons, popWhile_negPt]]
      exact chain_fold_negPt l (q :: popWhile q st)

theorem chainOf_negPt (l : List Pt) : chainOf (l.map negPt) = (chainOf l).map negPt := by
  have := chain_fold_negPt l []
  simpa [chainOf] using this

theorem upper_facts (S : List Pt) (hne : S ≠ []) (hS : S.Pairwise ptLT) :
    UpFacts S (chainOf S.reverse) := by
  set U : List Pt := S.reverse.map negPt with hU
  have hUne : U ≠ [] := by
    simp [hU]
    exact hne
  have hUS : U.Pairwise ptLT := by
    rw [hU, List.pairwise_map]
    rw [List.pairwise_reverse]
    exact hS.imp (fun h => ptLT_negPt.2 h)
  have hrev : U.map negPt = S.reverse := by
    rw [hU, map_negPt_invol]
  have hLe : chainOf S.reverse = (chainOf U).map negPt := by
    rw [← chainOf_negPt, hrev]
  rcases U with - | ⟨u0, U'⟩
  · exact absurd rfl hUne
  have inv := chainOf_inv u0 U' hUS
  set LU := chainOf (u0 :: U') with hLU
  have hLUne : LU ≠ [] := inv.hne
  rw [hLe]
  have hmemS : ∀ z ∈ (u0 :: U'), negPt z ∈ S := by
    intro z hz
    have : z ∈ S.reverse.map negPt := hU ▸ hz
    rcases List.mem_map.1 this with ⟨w, hw, hwz⟩
    rw [← hwz, negPt_invol]
    exact List.mem_reverse.1 hw
  refine ⟨?_, ?_, ?_, ?_, ?_, ?_, ?_⟩
  · simp [hLUne]
  · -- head of the mapped chain is the head of S
    have h1 : LU.head? = (u0 :: U').getLast? := inv.hhead
    have h2 : (u0 :: U').getLast? = (S.reverse.map negPt).getLast? := by rw [← hU]
    rw [List.head?_map, h1, h2, List.getLast?_map, List.getLast?_reverse]
    rcases hh : S.head? with - | x
    · rfl
    · simp [negPt_invol]
  · have h1 : LU.getLast? = some u0 := inv.hlast
    have hu0 : negPt u0 = S.getLast (by exact hne) := by
      have : (u0 :: U').head? = (S.reverse.map negPt).head? := by rw [← hU]
      rw [List.head?_map, List.head?_reverse] at this
      rw [List.getLast?_eq_getLast S hne] at this
      simp at this
      rw [this, negPt_invol]
    rw [List.getLast?_map, h1]
    rw [List.getLast?_eq_getLast S hne]
    simp [hu0]
  · intro y hy
    rcases List.mem_map.1 hy with ⟨z, hz, hzy⟩
    rw [← hzy]
    exact hmemS z (inv.hmem z hz)
  · rw [List.pairwise_map]
    exact inv.hdec.imp (fun h => ptLT_negPt.2 h)
  · intro a b c hin
    have hin2 : [negPt c, negPt b, negPt a] <:+: LU := by
      have := hin.map negPt
      rw [map_negPt_invol] at this
      exact this
    have := inv.hconv (negPt a) (negPt b) (negPt c) hin2
    rwa [cross_negPt] at this
  · intro p hp u v hin
    have hpU : negPt p ∈ (u0 :: U') := by
      rw [hU]
      exact List.mem_map_of_mem negPt (List.mem_reverse.2 hp)
    have hin2 : [negPt v, negPt u] <:+: LU := by
      have := hin.map negPt
      rw [map_negPt_invol] at this
      exact this
    have := inv.habove (negPt p) hpU (negPt u) (negPt v) hin2
    rwa [cross_negPt] at this

theorem suffix_one_getLast {a : Pt} {l : List Pt} (h : [a] <:+ l) : l.getLast? = some a := by
  rcases h with ⟨t, rfl⟩
  rw [List.getLast?_append_of_ne_nil _ (by simp)]
  rfl

theorem suffix_pair_getLast {a b : Pt} {l : List Pt} (h : [a, b] <:+ l) :
    l.getLast? = some b := by
  rcases h with ⟨t, rfl⟩
  rw [List.getLast?_append_of_ne_nil _ (by simp)]
  rfl

theorem pair_infix_append {u v : Pt} : ∀ (X Z : List Pt), [u, v] <:+: X ++ Z →
    [u, v] <:+: X ∨ [u, v] <:+: Z ∨ ([u] <:+ X ∧ ∃ r, Z = v :: r)
  | [], Z => fun h => Or.inr (Or.inl h)
  | x :: X', Z => fun h => by
      rw [List.cons_append] at h
      rcases pair_infix_cons h with ⟨hu, r, hr⟩ | h2
      · rcases X' with - | ⟨x', X''⟩
        · refine Or.inr (Or.inr ⟨⟨[], by simp [hu]⟩, r, by simpa using hr⟩)
        · rw [List.cons_append] at hr
          injection hr with h3 h4
          left
          rw [← hu, h3]
          exact ⟨[], X'', rfl⟩
      · rcases pair_infix_append X' Z h2 with h3 | h3 | ⟨hs, hz⟩
        · exact Or.inl (h3.trans (List.suffix_cons x X').isInfix)
        · exact Or.inr (Or.inl h3)
        · exact Or.inr (Or.inr ⟨hs.trans (List.suffix_cons x X'), hz⟩)

theorem triple_infix_append {a b c : Pt} : ∀ (X Z : List Pt), [a, b, c] <:+: X ++ Z →
    [a, b, c] <:+: X ∨ [a, b, c] <:+: Z ∨
    ([a, b] <:+ X ∧ ∃ r, Z = c :: r) ∨ ([a] <:+ X ∧ ∃ r, Z = b :: c :: r)
  | [], Z => fun h => Or.inr (Or.inl h)
  | x :: X', Z => fun h => by
      rw [List.cons_append] at h
      rcases triple_infix_cons h with ⟨ha, r, hr⟩ | h2
      · rcases X' with - | ⟨x', X''⟩
        · refine Or.inr (Or.inr (Or.inr ⟨⟨[], by simp [ha]⟩, r, by simpa using hr⟩))
        · rw [List.cons_append] at hr
          injection hr with h3 h4
          rcases X'' with - | ⟨x'', X3⟩
          · refine Or.inr (Or.inr (Or.inl ⟨⟨[], by simp [ha, h3]⟩, r, by simpa using h4⟩))
          · rw [List.cons_append] at h4
            injection h4 with h5 h6
            left
            rw [← ha, h3, h5]
            exact ⟨[], X3, rfl⟩
      · rcases triple_infix_append X' Z h2 with h3 | h3 | ⟨hs, hz⟩ | ⟨hs, hz⟩
        · exact Or.inl (h3.trans (List.suffix_cons x X').isInfix)
        · exact Or.inr (Or.inl h3)
        · exact Or.inr (Or.inr (Or.inl ⟨hs.trans (List.suffix_cons x X'), hz⟩))
        · exact Or.inr (Or.inr (Or.inr ⟨hs.trans (List.suffix_cons x X'), hz⟩))

theorem hull_take1 {m x2 : Pt} {xr B : List Pt} :
    ((m :: x2 :: xr).dropLast ++ B).take 1 = [m] := rfl

theorem hull_app_m {X Y : List Pt} {m x2 M y2 : Pt} {xr yr : List Pt}
    (hXs : X = m :: x2 :: xr) (hYs : Y = M :: y2 :: yr)
    (hXl : X.getLast? = some M) (hYl : Y.getLast? = some m) :
    (X.dropLast ++ Y.dropLast) ++ [m] = X ++ (y2 :: yr) := by
  have hYne : Y ≠ [] := by rw [hYs]; simp
  have hXne : X ≠ [] := by rw [hXs]; simp
  have hgY : Y.getLast hYne = m := by
    have h2 := List.getLast?_eq_getLast Y hYne
    rw [h2] at hYl
    exact Option.some.inj hYl
  have hgX : X.getLast hXne = M := by
    have h2 := List.getLast?_eq_getLast X hXne
    rw [h2] at hXl
    exact Option.some.inj hXl
  have hY2 := List.dropLast_append_getLast hYne
  rw [hgY] at hY2
  have hX2 := List.dropLast_append_getLast hXne
  rw [hgX] at hX2
  rw [List.append_assoc, hY2]
  conv_lhs => rw [hYs]
  rw [show (M :: y2 :: yr) = [M] ++ (y2 :: yr) from rfl, ← List.append_assoc, hX2]

theorem hull_take2 {X Y : List Pt} {m x2 M y2 : Pt} {xr yr : List Pt}
    (hXs : X = m :: x2 :: xr) (hYs : Y = M :: y2 :: yr)
    (hXl : X.getLast? = some M) :
    (X.dropLast ++ Y.dropLast).take 2 = [m, x2] := by
  subst hXs
  subst hYs
  rcases xr with - | ⟨x3, xr2⟩
  · have hx2 : x2 = M := by simpa using hXl
    rw [hx2]
    rfl
  · rfl

/-- Winding of the assembled hull, from the winding of both chains and
the two corner turns. -/
theorem hull_winds {X Y : List Pt} {m x2 M y2 : Pt} {xr yr : List Pt}
    (hXs : X = m :: x2 :: xr) (hYs : Y = M :: y2 :: yr)
    (hXl : X.getLast? = some M) (hYl : Y.getLast? = some m)
    (tX : turnsLeft X) (tY : turnsLeft Y)
    (corner1 : ∀ a b, [a, b] <:+ X → 0 < cross a b y2)
    (corner2 : ∀ a b, [a, b] <:+ Y → 0 < cross a b x2) :
    windsCCW (X.dropLast ++ Y.dropLast) := by
  intro a b c hin
  rw [hull_take2 hXs hYs hXl,
    show ([m, x2] : List Pt) = [m] ++ [x2] from rfl, ← List.append_assoc,
    hull_app_m hXs hYs hXl hYl, List.append_assoc] at hin
  have hYtail : (y2 :: yr) <:+ Y := by rw [hYs]; exact List.suffix_cons M (y2 :: yr)
  rcases triple_infix_append X _ hin with h | h | ⟨hs, r, hr⟩ | ⟨hs, r, hr⟩
  · exact tX a b c h
  · rcases triple_infix_append (y2 :: yr) [x2] h with h2 | h2 | ⟨hs2, r2, hr2⟩ | ⟨hs2, r2, hr2⟩
    · exact tY a b c (h2.trans hYtail.isInfix)
    · have := h2.sublist.length_le
      simp at this
    · injection hr2 with h3 h4
      rw [← h3]
      exact corner2 a b (hs2.trans hYtail)
    · exact absurd hr2 (by simp)
  · rw [List.cons_append] at hr
    injection hr with h3 h4
    rw [← h3]
    exact corner1 a b hs
  · rw [List.cons_append] at hr
    injection hr with h3 h4
    have ha : a = M := by
      have h5 := suffix_one_getLast hs
      rw [hXl] at h5
      exact (Option.some.inj h5).symm
    rcases yr with - | ⟨y3, yr2⟩
    · injection h4 with h5 h6
      rw [ha, ← h3, ← h5]
      exact corner2 M y2 (by rw [hYs])
    · rw [List.cons_append] at h4
      injection h4 with h5 h6
      rw [ha, ← h3, ← h5]
      exact tY M y2 y3 (by rw [hYs]; exact ⟨[], yr2, rfl⟩)

/-- Containment in the assembled hull, from the edge facts of both
chains. -/
theorem hull_inside {X Y : List Pt} {m x2 M y2 : Pt} {xr yr : List Pt} {p : Pt}
    (hXs : X = m :: x2 :: xr) (hYs : Y = M :: y2 :: yr)
    (hXl : X.getLast? = some M) (hYl : Y.getLast? = some m)
    (eX : edgesLeft p X) (eY : edgesLeft p Y) :
    insideHull (X.dropLast ++ Y.dropLast) p := by
  intro u v hin
  rw [show (X.dropLast ++ Y.dropLast).take 1 = [m] by rw [hXs]; exact hull_take1,
    hull_app_m hXs hYs hXl hYl] at hin
  have hYtail : (y2 :: yr) <:+ Y := by rw [hYs]; exact List.suffix_cons M (y2 :: yr)
  rcases pair_infix_append X _ hin with h | h | ⟨hs, r, hr⟩
  · exact eX u v h
  · exact eY u v (h.trans hYtail.isInfix)
  · injection hr with h3 h4
    have hu : u = M := by
      have h5 := suffix_one_getLast hs
      rw [hXl] at h5
      exact (Option.some.inj h5).symm
    rw [hu, ← h3]
    exact eY M y2 (by rw [hYs]; exact ⟨[], yr, rfl⟩)

theorem cross_swap (a b p : Pt) : cross b a p = -cross a b p := by
  simp only [cross]; ring

theorem tail_reverse (l : List Pt) : l.tail.reverse = l.reverse.dropLast := by
  cases l with
  | nil => rfl
  | cons x t => rw [List.tail_cons, List.reverse_cons, List.dropLast_concat]

theorem turnsLeft_reverse {l : List Pt} (h : convexI l) : turnsLeft l.reverse := by
  intro a b c hin
  refine h a b c (List.reverse_infix.1 ?_)
  simpa using hin

theorem edgesLeft_reverse {p : Pt} {l : List Pt} (h : aboveI p l) : edgesLeft p l.reverse := by
  intro u v hin
  refine h u v (List.reverse_infix.1 ?_)
  simpa using hin

theorem third_elem {l : List Pt} (hnd : l.Pairwise (fun a b => a ≠ b)) (hlen : 3 ≤ l.length)
    (a b : Pt) : ∃ p ∈ l, p ≠ a ∧ p ≠ b := by
  rcases l with - | ⟨x, l1⟩
  · simp at hlen
  rcases l1 with - | ⟨y, l2⟩
  · simp at hlen
  rcases l2 with - | ⟨z, t⟩
  · simp at hlen
  rcases List.pairwise_cons.1 hnd with ⟨hx, hnd2⟩
  rcases List.pairwise_cons.1 hnd2 with ⟨hy, -⟩
  have hxy : x ≠ y := hx y (by simp)
  have hxz : x ≠ z := hx z (by simp)
  have hyz : y ≠ z := hy z (by simp)
  by_cases hxa : x = a
  · by_cases hyb : y = b
    · exact ⟨z, by simp, by rw [← hxa]; exact hxz.symm, by rw [← hyb]; exact hyz.symm⟩
    · have hya : y ≠ a := fun h => hxy (hxa.trans h.symm)
      exact ⟨y, by simp, hya, hyb⟩
  · by_cases hxb : x = b
    · by_cases hya : y = a
      · exact ⟨z, by simp, by rw [← hya]; exact hyz.symm, by rw [← hxb]; exact hxz.symm⟩
      · have hyb : y ≠ b := fun h => hxy (hxb.trans h.symm)
        exact ⟨y, by simp, hya, hyb⟩
    · exact ⟨x, by simp, hxa, hxb⟩

theorem insertionSort_pairwise_lt {pts : List Pt} (hnd : pts.Pairwise (fun a b => a ≠ b)) :
    (List.insertionSort ptLE pts).Pairwise ptLT := by
  have hs : (List.insertionSort ptLE pts).Sorted ptLE := List.sorted_insertionSort ptLE pts
  have hperm : List.Perm (List.insertionSort ptLE pts) pts := List.perm_insertionSort ptLE pts
  have hnd2 : (List.insertionSort ptLE pts).Pairwise (fun a b => a ≠ b) :=
    hperm.nodup_iff.2 hnd
  exact (hs.and hnd2).imp (fun h => ptLT_of_ptLE_ne h.1 h.2)

theorem exists_cons2_of_len2 {l : List Pt} (h : 2 ≤ l.length) : ∃ a b t, l = a :: b :: t := by
  rcases l with - | ⟨a, - | ⟨b, t⟩⟩
  · simp at h
  · simp at h
  · exact ⟨a, b, t, rfl⟩

theorem chainOf_inv_ne (S : List Pt) (hne : S ≠ []) (hS : S.Pairwise ptLT) :
    ∃ p0, S.head? = some p0 ∧ ChainInv p0 S (chainOf S) := by
  rcases S with - | ⟨p0, S'⟩
  · exact absurd rfl hne
  · exact ⟨p0, rfl, chainOf_inv p0 S' hS⟩

/-- Correctness of the two-chain assembly over a strictly sorted point
list in general position. -/
theorem hull_assembly (S : List Pt) (hS : S.Pairwise ptLT) (hlen4 : 4 ≤ S.length)
    (hgen : ∀ a ∈ S, ∀ b ∈ S, ∀ c ∈ S, a ≠ b → a ≠ c → b ≠ c → cross a b c ≠ 0) :
    ((chainOf S).tail.reverse ++ (chainOf S.reverse).tail.reverse) ≠ [] ∧
    (∀ v ∈ (chainOf S).tail.reverse ++ (chainOf S.reverse).tail.reverse, v ∈ S) ∧
    windsCCW ((chainOf S).tail.reverse ++ (chainOf S.reverse).tail.reverse) ∧
    ∀ p ∈ S, insideHull ((chainOf S).tail.reverse ++ (chainOf S.reverse).tail.reverse) p := by
  have hSne : S ≠ [] := by
    intro h
    rw [h] at hlen4
    simp at hlen4
  obtain ⟨p0, hp0, inv⟩ := chainOf_inv_ne S hSne hS
  have up := upper_facts S hSne hS
  have hl2 : 2 ≤ (chainOf S).length := chainOf_len2 S (by omega)
  have hu2 : 2 ≤ (chainOf S.reverse).length :=
    chainOf_len2 S.reverse (by rw [List.length_reverse]; omega)
  obtain ⟨m, x2, xr, hXs⟩ := exists_cons2_of_len2
    (show 2 ≤ (chainOf S).reverse.length by rw [List.length_reverse]; exact hl2)
  obtain ⟨M0, y2, yr, hYs⟩ := exists_cons2_of_len2
    (show 2 ≤ (chainOf S.reverse).reverse.length by rw [List.length_reverse]; exact hu2)
  have hHid : (chainOf S).tail.reverse ++ (chainOf S.reverse).tail.reverse =
      ((chainOf S).reverse).dropLast ++ ((chainOf S.reverse).reverse).dropLast := by
    rw [tail_reverse, tail_reverse]
  have hXhead : ((chainOf S).reverse).head? = S.head? := by
    rw [List.head?_reverse, inv.hlast, hp0]
  have hXlast : ((chainOf S).reverse).getLast? = S.getLast? := by
    rw [List.getLast?_reverse]
    exact inv.hhead
  have hYhead : ((chainOf S.reverse).reverse).head? = S.getLast? := by
    rw [List.head?_reverse]
    exact up.hlastU
  have hYlast : ((chainOf S.reverse).reverse).getLast? = S.head? := by
    rw [List.getLast?_reverse]
    exact up.hhead
  have hmS : S.head? = some m := by rw [← hXhead, hXs]; rfl
  have hM0 : S.getLast? = some M0 := by rw [← hYhead, hYs]; rfl
  have hXl : ((chainOf S).reverse).getLast? = some M0 := by rw [hXlast, hM0]
  have hYl2 : ((chainOf S.reverse).reverse).getLast? = some m := by rw [hYlast, hmS]
  have hXpw : ((chainOf S).reverse).Pairwise ptLT := by
    rw [List.pairwise_reverse]
    exact inv.hdec
  have hYpw : ((chainOf S.reverse).reverse).Pairwise (fun a b => ptLT b a) := by
    rw [List.pairwise_reverse]
    exact up.hinc
  have tX : turnsLeft ((chainOf S).reverse) := turnsLeft_reverse inv.hconv
  have tY : turnsLeft ((chainOf S.reverse).reverse) := turnsLeft_reverse up.hconv
  have eX : ∀ p ∈ S, edgesLeft p ((chainOf S).reverse) :=
    fun p hp => edgesLeft_reverse (inv.habove p hp)
  have eY : ∀ p ∈ S, edgesLeft p ((chainOf S.reverse).reverse) :=
    fun p hp => edgesLeft_reverse (up.habove p hp)
  have hXmem : ∀ v ∈ (chainOf S).reverse, v ∈ S :=
    fun v hv => inv.hmem v (List.mem_reverse.1 hv)
  have hYmem : ∀ v ∈ (chainOf S.reverse).reverse, v ∈ S :=
    fun v hv => up.hmem v (List.mem_reverse.1 hv)
  have hSnd : S.Pairwise (fun a b => a ≠ b) := hS.imp ptLT_ne
  have hcontra : ∀ u w : Pt, u ∈ S → w ∈ S → u ≠ w →
      (∀ p ∈ S, 0 ≤ cross u w p) → (∀ p ∈ S, 0 ≤ cross w u p) → False := by
    intro u w hu hw hneq h1 h2
    obtain ⟨r, hr, hru, hrw⟩ := third_elem hSnd (by omega) u w
    have h2' := h2 r hr
    rw [cross_swap] at h2'
    have hz : cross u w r = 0 := le_antisymm (by linarith) (h1 r hr)
    exact hgen u hu w hw r hr hneq (Ne.symm hru) (Ne.symm hrw) hz
  have hy2S : y2 ∈ S := hYmem y2 (by rw [hYs]; simp)
  have hx2S : x2 ∈ S := hXmem x2 (by rw [hXs]; simp)
  have corner1 : ∀ a b, [a, b] <:+ (chainOf S).reverse → 0 < cross a b y2 := by
    intro a b hs
    have hbM : b = M0 := by
      have h5 := suffix_pair_getLast hs
      rw [hXl] at h5
      exact (Option.some.inj h5).symm
    have haS : a ∈ S := hXmem a (hs.sublist.subset (by simp))
    have hbS : b ∈ S := hXmem b (hs.sublist.subset (by simp))
    have hge : 0 ≤ cross a b y2 := eX y2 hy2S a b hs.isInfix
    have hab : a ≠ b := ptLT_ne (sorted_pair_lt hs.isInfix hXpw)
    have hby2 : b ≠ y2 := by
      have h6 : ptLT y2 M0 := stack_pair_lt
        (show [M0, y2] <:+: (chainOf S.reverse).reverse by rw [hYs]; exact ⟨[], yr, rfl⟩) hYpw
      rw [hbM]
      exact (ptLT_ne h6).symm
    rcases eq_or_ne a y2 with hay | hay
    · exfalso
      refine hcontra a b haS hbS hab ?_ ?_
      · intro p hp
        exact eX p hp a b hs.isInfix
      · intro p hp
        have h7 := eY p hp b y2
          (show [b, y2] <:+: (chainOf S.reverse).reverse by rw [hbM, hYs]; exact ⟨[], yr, rfl⟩)
        rw [hay]
        exact h7
    · exact lt_of_le_of_ne hge (Ne.symm (hgen a haS b hbS y2 hy2S hab hay hby2))
  have corner2 : ∀ a b, [a, b] <:+ (chainOf S.reverse).reverse → 0 < cross a b x2 := by
    intro a b hs
    have hbm : b = m := by
      have h5 := suffix_pair_getLast hs
      rw [hYl2] at h5
      exact (Option.some.inj h5).symm
    have haS : a ∈ S := hYmem a (hs.sublist.subset (by simp))
    have hbS : b ∈ S := hYmem b (hs.sublist.subset (by simp))
    have hge : 0 ≤ cross a b x2 := eY x2 hx2S a b hs.isInfix
    have hab : a ≠ b := by
      have h6 := stack_pair_lt hs.isInfix hYpw
      exact (ptLT_ne h6).symm
    have hbx2 : b ≠ x2 := by
      have h6 : ptLT m x2 := sorted_pair_lt
        (show [m, x2] <:+: (chainOf S).reverse by rw [hXs]; exact ⟨[], xr, rfl⟩) hXpw
      rw [hbm]
      exact ptLT_ne h6
    rcases eq_or_ne a x2 with hax | hax
    · exfalso
      refine hcontra a b haS hbS hab ?_ ?_
      · intro p hp
        exact eY p hp a b hs.isInfix
      · intro p hp
        have h7 := eX p hp b x2
          (show [b, x2] <:+: (chainOf S).reverse by rw [hbm, hXs]; exact ⟨[], xr, rfl⟩)
        rw [hax]
        exact h7
    · exact lt_of_le_of_ne hge (Ne.symm (hgen a haS b hbS x2 hx2S hab hax hbx2))
  rw [hHid]
  refine ⟨?_, ?_, ?_, ?_⟩
  · rw [hXs]
    simp
  · intro v hv
    rcases List.mem_append.1 hv with hv | hv
    · exact hXmem v ((List.dropLast_sublist _).subset hv)
    · exact hYmem v ((List.dropLast_sublist _).subset hv)
  · exact hull_winds hXs hYs hXl hYl2 tX tY corner1 corner2
  · intro p hp
    exact hull_inside hXs hYs hXl hYl2 (eX p hp) (eY p hp)

theorem convexHull_big_correct (pts : List Pt) (hlen : 4 ≤ pts.length) (hgp : genPos pts) :
    convexHull pts ≠ [] ∧ (∀ v ∈ convexHull pts, v ∈ pts) ∧
    windsCCW (convexHull pts) ∧ ∀ p ∈ pts, insideHull (convexHull pts) p := by
  have hperm : List.Perm (List.insertionSort ptLE pts) pts := List.perm_insertionSort ptLE pts
  have hS : (List.insertionSort ptLE pts).Pairwise ptLT := insertionSort_pairwise_lt hgp.1
  have hlen4 : 4 ≤ (List.insertionSort ptLE pts).length := by
    rw [List.length_insertionSort]
    omega
  have hgen : ∀ a ∈ List.insertionSort ptLE pts, ∀ b ∈ List.insertionSort ptLE pts,
      ∀ c ∈ List.insertionSort ptLE pts, a ≠ b → a ≠ c → b ≠ c → cross a b c ≠ 0 := by
    intro a ha b hb c hc
    exact hgp.2 a (hperm.subset ha) b (hperm.subset hb) c (hperm.subset hc)
  have hmain := hull_assembly _ hS hlen4 hgen
  rw [convexHull_eq_of_big pts (by omega)]
  refine ⟨hmain.1, ?_, hmain.2.2.1, ?_⟩
  · intro v hv
    exact hperm.subset (hmain.2.1 v hv)
  · intro p hp
    exact hmain.2.2.2 p (hperm.mem_iff.2 hp)

end Helpers

section Claims

/-- C7.  Label rectangle geometry: for every body the derived label
rectangle has top-left corner
(x - W/2, y + collisionRadius + 18) and dimensions 280 x 44 when
window.innerWidth >= 1024 and 240 x 40 otherwise; it is recomputed from
body state (the Asteroid record stores no label rectangle). -/
theorem label_rect_geometry (innerWidth : ℝ) (a : Asteroid) :
    getLabelRect innerWidth a =
      ⟨a.x - (if 1024 ≤ innerWidth then (280 : ℝ) else 240) / 2,
       a.y + a.r + 18,
       if 1024 ≤ innerWidth then (280 : ℝ) else 240,
       if 1024 ≤ innerWidth then (44 : ℝ) else 40⟩ := by
  simp [getLabelRect, getLabelDims, LABEL_GAP]

/-- C9.  Pairwise conservation: the pair-correction step of
resolveOverlaps (symmetric positional push, normal restitution impulse,
tangential friction impulse) leaves the sum of the two positions and the
sum of the two drift velocities unchanged, for every minimum translation
vector. -/
theorem pair_correction_conserves (A B : Asteroid) (m : MTV) :
    (applyPair A B m).1.x + (applyPair A B m).2.x = A.x + B.x ∧
    (applyPair A B m).1.y + (applyPair A B m).2.y = A.y + B.y ∧
    (applyPair A B m).1.driftX + (applyPair A B m).2.driftX = A.driftX + B.driftX ∧
    (applyPair A B m).1.driftY + (applyPair A B m).2.driftY = A.driftY + B.driftY := by
  simp only [applyPair]
  split_ifs <;> refine ⟨by ring, by ring, by ring, by ring⟩

/-- C3 counterexample.  A body outside the left padding bound whose drift
X-component points inward (toward the interior, positive) keeps a
positive drift X-component after one clampToBounds call: the sign is not
flipped as the claim states (the source assigns abs(driftX) * REST,
which preserves an inward sign). -/
theorem wall_bounce_cex :
    bodyWallCex.x < clampMinX 1024 bodyWallCex ∧ 0 < bodyWallCex.driftX ∧
    0 < (clampToBounds 1024 1000 1000 bodyWallCex).driftX := by
  refine ⟨?_, by norm_num [bodyWallCex], ?_⟩
  · simp only [bodyWallCex, clampMinX, getLabelDims]
    rw [if_pos (by norm_num), max_eq_right (by norm_num)]
    norm_num
  · simp only [clampToBounds, bodyWallCex, clampMinX, clampMaxX, clampMinY, clampMaxY,
      getLabelDims, LABEL_GAP]
    split_ifs <;> norm_num at *

/-- C3 as amended.  Wall bounce: a body outside the left padding bound
whose drift X-component points outward (away from the interior, negative)
is repositioned inside the bound by one clampToBounds call, with drift
X-component sign flipped and magnitude scaled by the restitution factor
0.98. -/
theorem wall_bounce_amended (innerWidth width height : ℝ) (a : Asteroid)
    (hx : a.x < clampMinX innerWidth a) (hd : a.driftX < 0) :
    clampMinX innerWidth a ≤ (clampToBounds innerWidth width height a).x ∧
    (clampToBounds innerWidth width height a).driftX = -a.driftX * 0.98 := by
  simp only [clampToBounds]
  rw [if_pos hx]
  have habs : |a.driftX| = -a.driftX := abs_of_neg hd
  split_ifs <;> exact ⟨by simp only []; linarith, by simp [habs]⟩

/-- Witness for the amended C3 at a concrete input. -/
theorem wall_bounce_amended_witness :
    clampMinX 1024 bodyWallWit ≤ (clampToBounds 1024 1000 1000 bodyWallWit).x ∧
    (clampToBounds 1024 1000 1000 bodyWallWit).driftX = -bodyWallWit.driftX * 0.98 :=
  wall_bounce_amended 1024 1000 1000 bodyWallWit
    (by simp only [bodyWallWit, clampMinX, getLabelDims]
        rw [if_pos (by norm_num), max_eq_right (by norm_num)]
        norm_num)
    (by norm_num [bodyWallWit])

/-- C2 counterexample.  After a completed resolution pass (one
resolveOverlaps iteration, which ends by clamping every body), a deeply
out-of-bounds body has been reflected past the opposite bound: its x
exceeds maxX, so the containment invariant does not hold. -/
theorem containment_cex :
    clampMaxX 800 500 ((resolveOverlaps 800 500 500 1 [bodyContainCex]).getD 0 default) <
      ((resolveOverlaps 800 500 500 1 [bodyContainCex]).getD 0 default).x := by
  have h1 : resolveOverlaps 800 500 500 1 [bodyContainCex] =
      onePass 800 500 500 [bodyContainCex] := rfl
  have h2 : pairList 1 = [] := rfl
  rw [h1]
  simp only [onePass, List.length_singleton, h2, List.foldl_nil, List.map_cons, List.map_nil,
    List.getD_cons_zero]
  simp only [clampToBounds, bodyContainCex, clampMinX, clampMaxX, clampMinY, clampMaxY,
    getLabelDims, LABEL_GAP]
  split_ifs <;> norm_num at *

/-- C2 as amended.  Containment: after the clamp that ends a resolution
pass, every body whose center violates each bound by less than the bound
span minus EPS = 0.35 lies inside [minX, maxX] x [minY, maxY]; for deeper
violations the reflecting clamp can overshoot the opposite bound. -/
theorem containment_amended (innerWidth width height : ℝ) (a : Asteroid)
    (hx1 : 2 * clampMinX innerWidth a - clampMaxX innerWidth width a + 0.35 ≤ a.x)
    (hx2 : a.x ≤ 2 * clampMaxX innerWidth width a - clampMinX innerWidth a - 0.35)
    (hy1 : 2 * clampMinY a - clampMaxY innerWidth height a + 0.35 ≤ a.y)
    (hy2 : a.y ≤ 2 * clampMaxY innerWidth height a - clampMinY a - 0.35) :
    clampMinX innerWidth a ≤ (clampToBounds innerWidth width height a).x ∧
    (clampToBounds innerWidth width height a).x ≤ clampMaxX innerWidth width a ∧
    clampMinY a ≤ (clampToBounds innerWidth width height a).y ∧
    (clampToBounds innerWidth width height a).y ≤ clampMaxY innerWidth height a := by
  simp only [clampToBounds]
  split_ifs <;> refine ⟨?_, ?_, ?_, ?_⟩ <;> simp_all <;> linarith

/-- Witness for the amended C2 at a concrete input. -/
theorem containment_amended_witness :
    clampMinX 1280 bodyFixWit ≤ (clampToBounds 1280 1000 1000 bodyFixWit).x ∧
    (clampToBounds 1280 1000 1000 bodyFixWit).x ≤ clampMaxX 1280 1000 bodyFixWit ∧
    clampMinY bodyFixWit ≤ (clampToBounds 1280 1000 1000 bodyFixWit).y ∧
    (clampToBounds 1280 1000 1000 bodyFixWit).y ≤ clampMaxY 1280 1000 bodyFixWit := by
  have hminx : clampMinX 1280 bodyFixWit = 180 := by
    simp only [clampMinX, getLabelDims, bodyFixWit]
    rw [if_pos (by norm_num), max_eq_right (by norm_num)]
    norm_num
  have hmaxx : clampMaxX 1280 1000 bodyFixWit = 820 := by
    simp only [clampMaxX, getLabelDims, bodyFixWit]
    rw [if_pos (by norm_num), max_eq_right (by norm_num)]
    norm_num
  have hminy : clampMinY bodyFixWit = 60 := by
    simp only [clampMinY, bodyFixWit]; norm_num
  have hmaxy : clampMaxY 1280 1000 bodyFixWit = 638 := by
    simp only [clampMaxY, clampMinY, getLabelDims, bodyFixWit, LABEL_GAP]
    rw [if_pos (by norm_num)]
    rw [show ((40 : ℝ) + 20 + 50) = 110 by norm_num]
    rw [show ((1000 : ℝ) * 0.72 - (20 + 18 + 44)) = 638 by norm_num]
    rw [max_eq_right (by norm_num)]
  exact containment_amended 1280 1000 1000 bodyFixWit
    (by rw [hminx, hmaxx]; norm_num [bodyFixWit])
    (by rw [hminx, hmaxx]; norm_num [bodyFixWit])
    (by rw [hminy, hmaxy]; norm_num [bodyFixWit])
    (by rw [hminy, hmaxy]; norm_num [bodyFixWit])

/-- C6.  Idempotent re-solve: a configuration in which every pair of
merged colliders is already separated (satMTV none) and every body is
inside its clamp bounds is an exact fixed point of resolveOverlaps, for
any iteration count: no position (or any other field) changes at all, so
in particular every position delta is below any positive epsilon. -/
theorem resolve_fixed_point (innerWidth width height : ℝ) (l : List Asteroid) (n : ℕ)
    (hsep : ∀ i j : ℕ, i < j → j < l.length →
      satMTV (asteroidWorldPoly innerWidth (l.getD i default))
        (asteroidWorldPoly innerWidth (l.getD j default)) = none)
    (hin : ∀ a ∈ l, inClampBounds innerWidth width height a) :
    resolveOverlaps innerWidth width height n l = l := by
  have hone : onePass innerWidth width height l = l := by
    unfold onePass
    rw [foldl_pairStep_id innerWidth l (pairList l.length) ?hall]
    case hall =>
      intro p hp
      obtain ⟨hij, hjn⟩ := mem_pairList hp
      exact pairStep_of_sep (hsep p.1 p.2 hij hjn)
    exact map_of_forall_eq _ l (fun a ha => clampToBounds_of_inClampBounds (hin a ha))
  induction n with
  | zero => rfl
  | succ k ih =>
      show resolveOverlaps innerWidth width height k (onePass innerWidth width height l) = l
      rw [hone]
      exact ih

/-- Witness for C6 at a concrete input: a single in-bounds body. -/
theorem resolve_fixed_point_witness :
    resolveOverlaps 1280 1000 1000 2 [bodyFix6] = [bodyFix6] := by
  refine resolve_fixed_point 1280 1000 1000 [bodyFix6] 2
    (fun i j hij hj => absurd hij (by simp only [List.length_singleton] at hj; omega)) ?_
  intro a ha
  rw [List.mem_singleton] at ha
  subst ha
  refine ⟨?_, ?_, ?_, ?_⟩
  · simp only [clampMinX, getLabelDims, bodyFix6]
    rw [if_pos (by norm_num), max_eq_right (by norm_num)]
    norm_num
  · simp only [clampMaxX, getLabelDims, bodyFix6]
    rw [if_pos (by norm_num), max_eq_right (by norm_num)]
    norm_num
  · simp only [clampMinY, bodyFix6]; norm_num
  · simp only [clampMaxY, clampMinY, getLabelDims, bodyFix6, LABEL_GAP]
    rw [if_pos (by norm_num)]
    have : max ((40 : ℝ) + 20 + 50) (1000 * 0.72 - (20 + 18 + 44)) = 638 := by
      rw [max_eq_right (by norm_num)]; norm_num
    rw [this]
    norm_num

/-- C8.  Hit-test semantics: hitTest returns the first body in list order
whose center is strictly closer than collisionRadius + 12 to the pointer
(in container coordinates), and none exactly when no body qualifies. -/
theorem hit_test_first (bodies : List Asteroid) (rectLeft rectTop clientX clientY : ℝ) :
    (∀ a : Asteroid,
      hitTest bodies rectLeft rectTop clientX clientY = some a ↔
        ∃ pre post, bodies = pre ++ a :: post ∧
          hitP (clientX - rectLeft) (clientY - rectTop) a ∧
          ∀ b ∈ pre, ¬hitP (clientX - rectLeft) (clientY - rectTop) b) ∧
    (hitTest bodies rectLeft rectTop clientX clientY = none ↔
      ∀ b ∈ bodies, ¬hitP (clientX - rectLeft) (clientY - rectTop) b) :=
  ⟨fun a => hitTestGo_eq_some_iff (clientX - rectLeft) (clientY - rectTop) a bodies,
   hitTestGo_eq_none_iff (clientX - rectLeft) (clientY - rectTop) bodies⟩

/-- C10.  Silhouette radius bound: every vertex generated by
generateAsteroidVertices lies at distance between 0.81 * (size/2) and
1.03 * (size/2) from the local origin, and for every positive size there
is a phase seed in [0, 2 pi) for which some vertex lies strictly outside
the collision circle of radius size/2. -/
theorem silhouette_radius_bound (size seed : ℝ) (v : Pt) (hs : 0 < size)
    (hv : v ∈ generateAsteroidVertices size seed) :
    (0.81 * (size / 2) ≤ Real.sqrt (v.x ^ 2 + v.y ^ 2) ∧
      Real.sqrt (v.x ^ 2 + v.y ^ 2) ≤ 1.03 * (size / 2)) ∧
    ∃ s2, 0 ≤ s2 ∧ s2 < 2 * Real.pi ∧
      ∃ w ∈ generateAsteroidVertices size s2, size / 2 < Real.sqrt (w.x ^ 2 + w.y ^ 2) := by
  constructor
  · simp only [generateAsteroidVertices, List.mem_map, List.mem_range] at hv
    obtain ⟨i, hi, rfl⟩ := hv
    dsimp only
    set θ := ((i : ℝ) / 18) * Real.pi * 2 with hθ
    set W := 0.92 + Real.sin (θ * 2 + seed) * 0.06 + Real.cos (θ * 3.2 + seed * 0.7) * 0.05
      with hWdef
    have hW1 : 0.81 ≤ W := by
      have h1 := Real.neg_one_le_sin (θ * 2 + seed)
      have h2 := Real.neg_one_le_cos (θ * 3.2 + seed * 0.7)
      rw [hWdef]; nlinarith
    have hW2 : W ≤ 1.03 := by
      have h1 := Real.sin_le_one (θ * 2 + seed)
      have h2 := Real.cos_le_one (θ * 3.2 + seed * 0.7)
      rw [hWdef]; nlinarith
    have hrr : 0 ≤ size / 2 * W := by nlinarith
    have hkey : (Real.cos θ * (size / 2 * W)) ^ 2 + (Real.sin θ * (size / 2 * W)) ^ 2 =
        (size / 2 * W) ^ 2 := by
      linear_combination (size / 2 * W) ^ 2 * Real.sin_sq_add_cos_sq θ
    rw [hkey, Real.sqrt_sq_eq_abs, abs_of_nonneg hrr]
    constructor <;> nlinarith
  · refine ⟨5 * Real.pi / 14, by positivity, by nlinarith [Real.pi_pos], ?_⟩
    simp only [generateAsteroidVertices]
    refine ⟨_, List.mem_map_of_mem _ (List.mem_range.2 (by norm_num : (0 : ℕ) < 18)), ?_⟩
    dsimp only
    rw [show (((0 : ℕ) : ℝ) / 18) * Real.pi * 2 = 0 by norm_num]
    rw [Real.cos_zero, Real.sin_zero]
    rw [show (0 : ℝ) * 2 + 5 * Real.pi / 14 = 5 * Real.pi / 14 by ring]
    rw [show (0 : ℝ) * 3.2 + 5 * Real.pi / 14 * 0.7 = Real.pi / 4 by ring]
    rw [Real.cos_pi_div_four]
    have hsin : Real.sin (Real.pi / 3) ≤ Real.sin (5 * Real.pi / 14) := by
      have hpi := Real.pi_pos
      refine Real.strictMonoOn_sin.monotoneOn ⟨by linarith, by linarith⟩
        ⟨by linarith, by linarith⟩ (by linarith)
    rw [Real.sin_pi_div_three] at hsin
    have s3 : (1.73 : ℝ) ≤ Real.sqrt 3 := by
      nlinarith [Real.sq_sqrt (show (0 : ℝ) ≤ 3 by norm_num), Real.sqrt_nonneg 3]
    have s2b : (1.41 : ℝ) ≤ Real.sqrt 2 := by
      nlinarith [Real.sq_sqrt (show (0 : ℝ) ≤ 2 by norm_num), Real.sqrt_nonneg 2]
    set W0 := 0.92 + Real.sin (5 * Real.pi / 14) * 0.06 + Real.sqrt 2 / 2 * 0.05 with hW0
    have hW0gt : 1 < W0 := by rw [hW0]; nlinarith
    have hrr0 : 0 ≤ size / 2 * W0 := by nlinarith
    rw [show (1 * (size / 2 * W0)) ^ 2 + (0 * (size / 2 * W0)) ^ 2 = (size / 2 * W0) ^ 2 by ring]
    rw [Real.sqrt_sq_eq_abs, abs_of_nonneg hrr0]
    nlinarith

/-- Witness for C10 at size 2 and seed 0, applied to the first generated
vertex. -/
theorem silhouette_radius_bound_witness :
    (0 : ℝ) < 2 ∧
    ((0.81 * ((2 : ℝ) / 2) ≤
        Real.sqrt ((generateAsteroidVertices 2 0).head!.x ^ 2 +
          (generateAsteroidVertices 2 0).head!.y ^ 2) ∧
      Real.sqrt ((generateAsteroidVertices 2 0).head!.x ^ 2 +
          (generateAsteroidVertices 2 0).head!.y ^ 2) ≤ 1.03 * ((2 : ℝ) / 2)) ∧
    ∃ s2, 0 ≤ s2 ∧ s2 < 2 * Real.pi ∧
      ∃ w ∈ generateAsteroidVertices 2 s2, (2 : ℝ) / 2 < Real.sqrt (w.x ^ 2 + w.y ^ 2)) := by
  have hlen : (generateAsteroidVertices 2 0).length = 18 := by
    simp [generateAsteroidVertices]
  have hne : generateAsteroidVertices 2 0 ≠ [] := by
    intro h; rw [h] at hlen; simp at hlen
  exact ⟨by norm_num,
    silhouette_radius_bound 2 0 (generateAsteroidVertices 2 0).head! (by norm_num)
      (List.head!_mem_self hne)⟩

/-- C4.  MTV direction correctness: whenever satMTV returns a result, the
returned axis has non-negative dot product with the vector from the
centroid of A to the centroid of B; and for two overlapping axis-aligned
unit squares offset along X by 0 < d < 1 (less than the combined
half-widths), it returns exactly the rightward axis with overlap 1 - d,
whose X sign matches the centroid direction (which points rightward). -/
theorem mtv_direction :
    (∀ (A B : List Pt) (m : MTV), satMTV A B = some m →
      0 ≤ ((centroid B).x - (centroid A).x) * m.nx + ((centroid B).y - (centroid A).y) * m.ny) ∧
    (∀ d : ℝ, 0 < d → d < 1 →
      satMTV (unitSq 0) (unitSq d) = some ⟨1, 0, 1 - d⟩ ∧
      (centroid (unitSq 0)).x < (centroid (unitSq d)).x) := by
  constructor
  · intro A B m h
    unfold satMTV at h
    rcases hr : runAxes A B (axesOf A ++ axesOf B) none with _ | ob
    · rw [hr] at h; exact absurd h (by simp)
    · rcases ob with _ | ⟨bo, bax⟩
      · rw [hr] at h; exact absurd h (by simp)
      · rw [hr] at h
        simp only [] at h
        by_cases hd : dot ⟨(centroid B).x - (centroid A).x, (centroid B).y - (centroid A).y⟩
            bax < 0
        · rw [if_pos hd] at h
          injection h with h
          subst h
          simp only [dot] at hd
          dsimp only
          nlinarith
        · rw [if_neg hd] at h
          injection h with h
          subst h
          simp only [dot, not_lt] at hd
          dsimp only
          linarith
  · intro d hd0 hd1
    have hox : 0 < min (0 + 1) (d + 1) - max 0 d := by
      rw [min_eq_left (by linarith), max_eq_right hd0.le]; linarith
    have hxy : min (0 + 1) (d + 1) - max 0 d < min 1 1 - max 0 0 := by
      rw [min_eq_left (by linarith), max_eq_right hd0.le, min_self, max_self]; linarith
    have h := satMTV_rect_x 0 (0 + 1) 0 1 d (d + 1) 0 1 (by norm_num) (by norm_num)
      (by linarith) (by norm_num) hox hxy (by linarith)
    constructor
    · rw [show unitSq 0 = rectPts 0 (0 + 1) 0 1 from rfl,
        show unitSq d = rectPts d (d + 1) 0 1 from rfl, h,
        show min (0 + (1 : ℝ)) (d + 1) - max 0 d = 1 - d by
          rw [min_eq_left (by linarith), max_eq_right hd0.le]; ring]
    · rw [show unitSq 0 = rectPts 0 (0 + 1) 0 1 from rfl,
        show unitSq d = rectPts d (d + 1) 0 1 from rfl, centroid_rect, centroid_rect]
      dsimp only
      linarith

/-- Witness for C4 at offset one half. -/
theorem mtv_direction_witness :
    satMTV (unitSq 0) (unitSq (1 / 2)) = some ⟨1, 0, 1 - 1 / 2⟩ ∧
    0 ≤ ((centroid (unitSq (1 / 2))).x - (centroid (unitSq 0)).x) * (1 : ℝ) +
      ((centroid (unitSq (1 / 2))).y - (centroid (unitSq 0)).y) * (0 : ℝ) := by
  have h2 := (mtv_direction.2 (1 / 2) (by norm_num) (by norm_num)).1
  exact ⟨h2, mtv_direction.1 (unitSq 0) (unitSq (1 / 2)) ⟨1, 0, 1 - 1 / 2⟩ h2⟩

/-- C1 counterexample.  After a completed resolution pass (one
resolveOverlaps iteration, including its per-iteration clamp), the two
bodies' merged colliders still overlap: the pair push separates them, but
the boundary clamp pushes the first body back into the second, so satMTV
does not return none for every pair. -/
theorem no_overlap_cex :
    satMTV
      (asteroidWorldPoly 800
        ((resolveOverlaps 800 320 200 1 [bodyC1A, bodyC1B]).getD 0 default))
      (asteroidWorldPoly 800
        ((resolveOverlaps 800 320 200 1 [bodyC1A, bodyC1B]).getD 1 default)) ≠ none := by
  have hdims : getLabelDims 800 = (240, 40) := by
    simp only [getLabelDims]
    rw [if_neg (by norm_num), if_neg (by norm_num)]
  have hpA : asteroidWorldPoly 800 bodyC1A = rectPts 40 280 63 103 := by
    rw [worldPoly_label_only 800 bodyC1A rfl, hdims]
    norm_num [bodyC1A, LABEL_GAP, rectPts]
  have hpB : asteroidWorldPoly 800 bodyC1B = rectPts 40 280 73 113 := by
    rw [worldPoly_label_only 800 bodyC1B rfl, hdims]
    norm_num [bodyC1B, LABEL_GAP, rectPts]
  have hov1 : min (103 : ℝ) 113 - max 63 73 = 30 := by
    rw [min_eq_left (by norm_num), max_eq_right (by norm_num)]; norm_num
  have hsat : satMTV (rectPts 40 280 63 103) (rectPts 40 280 73 113) = some ⟨0, 1, 30⟩ := by
    have h := satMTV_rect_y 40 280 63 103 40 280 73 113 (by norm_num) (by norm_num)
      (by norm_num) (by norm_num) (by rw [hov1]; norm_num)
      (by rw [hov1, min_self, max_self]; norm_num) (by norm_num)
    rw [hov1] at h
    exact h
  have happ : applyPair bodyC1A bodyC1B ⟨0, 1, 30⟩ = (bodyC1A1, bodyC1B1) := by
    simp only [applyPair, bodyC1A, bodyC1B]
    rw [if_neg (by norm_num)]
    norm_num [bodyC1A1, bodyC1B1, Prod.mk.injEq, Asteroid.mk.injEq]
  have hstep : pairStep 800 [bodyC1A, bodyC1B] 0 1 = [bodyC1A1, bodyC1B1] := by
    simp only [pairStep]
    rw [show ([bodyC1A, bodyC1B].getD 0 default) = bodyC1A from rfl,
      show ([bodyC1A, bodyC1B].getD 1 default) = bodyC1B from rfl, hpA, hpB, hsat]
    simp only [happ]
    rfl
  have hclampA : clampToBounds 800 320 200 bodyC1A1 = bodyC1A2 := by
    simp only [clampToBounds, clampMinX, clampMaxX, clampMinY, clampMaxY, hdims, bodyC1A1,
      LABEL_GAP]
    rw [max_eq_right (by norm_num : (0 : ℝ) ≤ 240 / 2)]
    split_ifs <;> norm_num [bodyC1A2, Asteroid.mk.injEq] at *
  have hclampB : clampToBounds 800 320 200 bodyC1B1 = bodyC1B1 := by
    simp only [clampToBounds, clampMinX, clampMaxX, clampMinY, clampMaxY, hdims, bodyC1B1,
      LABEL_GAP]
    rw [max_eq_right (by norm_num : (0 : ℝ) ≤ 240 / 2)]
    split_ifs <;> norm_num [Asteroid.mk.injEq] at *
  have hres : resolveOverlaps 800 320 200 1 [bodyC1A, bodyC1B] = [bodyC1A2, bodyC1B1] := by
    rw [show resolveOverlaps 800 320 200 1 [bodyC1A, bodyC1B] =
      onePass 800 320 200 [bodyC1A, bodyC1B] from rfl]
    simp only [onePass, List.length_cons, List.length_nil]
    rw [show pairList (0 + 1 + 1) = [(0, 1)] from rfl]
    simp only [List.foldl_cons, List.foldl_nil, hstep, List.map_cons, List.map_nil,
      hclampA, hclampB]
  rw [hres]
  rw [show (([bodyC1A2, bodyC1B1] : List Asteroid).getD 0 default) = bodyC1A2 from rfl,
    show (([bodyC1A2, bodyC1B1] : List Asteroid).getD 1 default) = bodyC1B1 from rfl]
  have hpA2 : asteroidWorldPoly 800 bodyC1A2 = rectPts 40 280 68.475 108.475 := by
    rw [worldPoly_label_only 800 bodyC1A2 rfl, hdims]
    norm_num [bodyC1A2, LABEL_GAP, rectPts]
  have hpB2 : asteroidWorldPoly 800 bodyC1B1 = rectPts 40 280 88.125 128.125 := by
    rw [worldPoly_label_only 800 bodyC1B1 rfl, hdims]
    norm_num [bodyC1B1, LABEL_GAP, rectPts]
  have hov2 : min (108.475 : ℝ) 128.125 - max 68.475 88.125 = 20.35 := by
    rw [min_eq_left (by norm_num), max_eq_right (by norm_num)]; norm_num
  have hsat2 : satMTV (rectPts 40 280 68.475 108.475) (rectPts 40 280 88.125 128.125) =
      some ⟨0, 1, 20.35⟩ := by
    have h := satMTV_rect_y 40 280 68.475 108.475 40 280 88.125 128.125 (by norm_num)
      (by norm_num) (by norm_num) (by norm_num) (by rw [hov2]; norm_num)
      (by rw [hov2, min_self, max_self]; norm_num) (by norm_num)
    rw [hov2] at h
    exact h
  rw [hpA2, hpB2, hsat2]
  simp

/-- C1 as amended.  When satMTV reports an overlap for a pair of merged
colliders and on the returned axis neither projection interval strictly
contains the other (the A interval lies no higher than the B interval at
both ends), the symmetric pushes applied by the pair-correction step
leave the two colliders separated: satMTV of the pushed pair returns
none.  The full pass does not guarantee this for every pair, since
containment configurations and the boundary clamp can leave or restore
overlap. -/
theorem no_overlap_amended (innerWidth : ℝ) (A B : Asteroid) (m : MTV)
    (hm : satMTV (asteroidWorldPoly innerWidth A) (asteroidWorldPoly innerWidth B) = some m)
    (hnc1 : (projectPoly (asteroidWorldPoly innerWidth A) ⟨m.nx, m.ny⟩).1 ≤
      (projectPoly (asteroidWorldPoly innerWidth B) ⟨m.nx, m.ny⟩).1)
    (hnc2 : (projectPoly (asteroidWorldPoly innerWidth A) ⟨m.nx, m.ny⟩).2 ≤
      (projectPoly (asteroidWorldPoly innerWidth B) ⟨m.nx, m.ny⟩).2) :
    satMTV (asteroidWorldPoly innerWidth (applyPair A B m).1)
      (asteroidWorldPoly innerWidth (applyPair A B m).2) = none := by
  obtain ⟨bax, hmem, hov_eq, hpos, hcase⟩ :=
    satMTV_some_spec (asteroidWorldPoly innerWidth A) (asteroidWorldPoly innerWidth B) m hm
  have hf := applyPair_fields A B m
  have hq : (0 : ℝ) ≤ (m.overlap + 0.25) * 0.5 := by nlinarith
  have hA2 : asteroidWorldPoly innerWidth (applyPair A B m).1 =
      (asteroidWorldPoly innerWidth A).map
        (translatePt (-(m.nx * ((m.overlap + 0.25) * 0.5)))
          (-(m.ny * ((m.overlap + 0.25) * 0.5)))) := by
    have hcongr := worldPoly_congr innerWidth (applyPair A B m).1
      { A with x := A.x + -(m.nx * ((m.overlap + 0.25) * 0.5)),
               y := A.y + -(m.ny * ((m.overlap + 0.25) * 0.5)) }
      (by rw [hf.1]; ring) (by rw [hf.2.1]; ring) hf.2.2.1 hf.2.2.2.1 hf.2.2.2.2.1
    rw [hcongr, worldPoly_translate]
  have hB2 : asteroidWorldPoly innerWidth (applyPair A B m).2 =
      (asteroidWorldPoly innerWidth B).map
        (translatePt (m.nx * ((m.overlap + 0.25) * 0.5))
          (m.ny * ((m.overlap + 0.25) * 0.5))) := by
    have hcongr := worldPoly_congr innerWidth (applyPair A B m).2
      { B with x := B.x + m.nx * ((m.overlap + 0.25) * 0.5),
               y := B.y + m.ny * ((m.overlap + 0.25) * 0.5) }
      (by rw [hf.2.2.2.2.2.1]) (by rw [hf.2.2.2.2.2.2.1]) hf.2.2.2.2.2.2.2.1
      hf.2.2.2.2.2.2.2.2.1 hf.2.2.2.2.2.2.2.2.2
    rw [hcongr, worldPoly_translate]
  rw [hA2, hB2]
  have hunit : bax.x ^ 2 + bax.y ^ 2 = 1 := by
    have hbax_norm : ∃ v, bax = normalize v := by
      rcases List.mem_append.1 hmem with hm2 | hm2 <;>
        · simp only [axesOf] at hm2
          obtain ⟨p1, p2, rfl⟩ := mem_zipWith hm2
          exact ⟨_, rfl⟩
    obtain ⟨v, rfl⟩ := hbax_norm
    rcases normalize_unit_or_zero v with hz | hu
    · rw [hz, ovOn_zero] at hov_eq
      exact absurd hov_eq (by intro hc; rw [hc] at hpos; exact absurd hpos (by norm_num))
    · exact hu
  apply satMTV_none_of_axis _ _ bax
  · rw [axesOf_map_translate, axesOf_map_translate]
    exact hmem
  · have hpA := worldPoly_ne_nil innerWidth A
    have hpB := worldPoly_ne_nil innerWidth B
    have hprojA := projectPoly_translate (-(m.nx * ((m.overlap + 0.25) * 0.5)))
      (-(m.ny * ((m.overlap + 0.25) * 0.5))) bax (asteroidWorldPoly innerWidth A) hpA
    have hprojB := projectPoly_translate (m.nx * ((m.overlap + 0.25) * 0.5))
      (m.ny * ((m.overlap + 0.25) * 0.5)) bax (asteroidWorldPoly innerWidth B) hpB
    have hdA : dot ⟨-(m.nx * ((m.overlap + 0.25) * 0.5)),
        -(m.ny * ((m.overlap + 0.25) * 0.5))⟩ bax =
        -((m.overlap + 0.25) * 0.5 * dot ⟨m.nx, m.ny⟩ bax) := by
      simp only [dot]
      ring
    have hdB : dot ⟨m.nx * ((m.overlap + 0.25) * 0.5),
        m.ny * ((m.overlap + 0.25) * 0.5)⟩ bax =
        (m.overlap + 0.25) * 0.5 * dot ⟨m.nx, m.ny⟩ bax := by
      simp only [dot]
      ring
    simp only [ovOn, hprojA, hprojB, hdA, hdB]
    rcases hcase with hcaseq | hcaseq
    · have hdot : dot ⟨m.nx, m.ny⟩ bax = 1 := by
        rw [hcaseq]
        simp only [dot]
        linear_combination hunit
      rw [hcaseq] at hnc1 hnc2
      have hovv : m.overlap = (projectPoly (asteroidWorldPoly innerWidth A) bax).2 -
          (projectPoly (asteroidWorldPoly innerWidth B) bax).1 := by
        rw [hov_eq]
        simp only [ovOn]
        rw [min_eq_left hnc2, max_eq_right hnc1]
      rw [hdot]
      rw [min_eq_left (by linarith), max_eq_right (by linarith)]
      linarith
    · have hdot : dot ⟨m.nx, m.ny⟩ bax = -1 := by
        rw [hcaseq]
        simp only [dot]
        linear_combination -hunit
      rw [hcaseq, projectPoly_neg, projectPoly_neg] at hnc1 hnc2
      have hb2 : (projectPoly (asteroidWorldPoly innerWidth B) bax).2 ≤
          (projectPoly (asteroidWorldPoly innerWidth A) bax).2 := by
        have := hnc1
        simp only [] at this
        linarith
      have hb1 : (projectPoly (asteroidWorldPoly innerWidth B) bax).1 ≤
          (projectPoly (asteroidWorldPoly innerWidth A) bax).1 := by
        have := hnc2
        simp only [] at this
        linarith
      have hovv : m.overlap = (projectPoly (asteroidWorldPoly innerWidth B) bax).2 -
          (projectPoly (asteroidWorldPoly innerWidth A) bax).1 := by
        rw [hov_eq]
        simp only [ovOn]
        rw [min_eq_right hb2, max_eq_left hb1]
      rw [hdot]
      rw [min_eq_right (by linarith), max_eq_left (by linarith)]
      linarith

/-- Witness for the amended C1: two label-only bodies at the same height,
10 pixels apart in x, whose vertical projections coincide (so neither
interval strictly contains the other); the theorem separates them. -/
theorem no_overlap_amended_witness :
    satMTV
      (asteroidWorldPoly 800 (applyPair ⟨0, 0, 40, 0, 0, 0, 0, [], 0⟩
        ⟨10, 0, 40, 0, 0, 0, 0, [], 0⟩ ⟨0, 1, 40⟩).1)
      (asteroidWorldPoly 800 (applyPair ⟨0, 0, 40, 0, 0, 0, 0, [], 0⟩
        ⟨10, 0, 40, 0, 0, 0, 0, [], 0⟩ ⟨0, 1, 40⟩).2) = none := by
  have hdims : getLabelDims 800 = (240, 40) := by
    simp only [getLabelDims]
    rw [if_neg (by norm_num), if_neg (by norm_num)]
  have hpA : asteroidWorldPoly 800 (⟨0, 0, 40, 0, 0, 0, 0, [], 0⟩ : Asteroid) =
      rectPts (-120) 120 18 58 := by
    rw [worldPoly_label_only 800 _ rfl, hdims]
    norm_num [LABEL_GAP, rectPts]
  have hpB : asteroidWorldPoly 800 (⟨10, 0, 40, 0, 0, 0, 0, [], 0⟩ : Asteroid) =
      rectPts (-110) 130 18 58 := by
    rw [worldPoly_label_only 800 _ rfl, hdims]
    norm_num [LABEL_GAP, rectPts]
  have hov : min (58 : ℝ) 58 - max 18 18 = 40 := by
    rw [min_self, max_self]; norm_num
  have hsat : satMTV (rectPts (-120) 120 18 58) (rectPts (-110) 130 18 58) =
      some ⟨0, 1, 40⟩ := by
    have h := satMTV_rect_y (-120) 120 18 58 (-110) 130 18 58 (by norm_num) (by norm_num)
      (by norm_num) (by norm_num) (by rw [hov]; norm_num)
      (by rw [hov, min_eq_left (by norm_num : (120 : ℝ) ≤ 130),
        max_eq_right (by norm_num : (-120 : ℝ) ≤ -110)]; norm_num) (by norm_num)
    rw [hov] at h
    exact h
  refine no_overlap_amended 800 _ _ ⟨0, 1, 40⟩ (by rw [hpA, hpB]; exact hsat) ?_ ?_
  · rw [hpA, hpB]
    rw [show ((⟨0, 1, 40⟩ : MTV).nx) = (0 : ℝ) from rfl,
      show ((⟨0, 1, 40⟩ : MTV).ny) = (1 : ℝ) from rfl]
    rw [projectPoly_rect_yp _ _ _ _ (by norm_num : (18 : ℝ) ≤ 58),
      projectPoly_rect_yp _ _ _ _ (by norm_num : (18 : ℝ) ≤ 58)]
  · rw [hpA, hpB]
    rw [show ((⟨0, 1, 40⟩ : MTV).nx) = (0 : ℝ) from rfl,
      show ((⟨0, 1, 40⟩ : MTV).ny) = (1 : ℝ) from rfl]
    rw [projectPoly_rect_yp _ _ _ _ (by norm_num : (18 : ℝ) ≤ 58),
      projectPoly_rect_yp _ _ _ _ (by norm_num : (18 : ℝ) ≤ 58)]

/-- C5: Convex hull correctness. For at most three input points convexHull
returns the input unchanged; for at least four pairwise distinct points with
no three collinear, convexHull returns a nonempty polygon drawn from the
input whose cyclic adjacent vertex triples are all strict left turns
(consistent counterclockwise winding) and whose every edge, the closing edge
included, keeps every input point weakly on its left, so every input point
lies on or inside the boundary and none lies outside. -/
theorem convex_hull_correct (pts : List Pt) :
    (pts.length ≤ 3 → convexHull pts = pts) ∧
    (4 ≤ pts.length → genPos pts →
      convexHull pts ≠ [] ∧ (∀ v ∈ convexHull pts, v ∈ pts) ∧
      windsCCW (convexHull pts) ∧ ∀ p ∈ pts, insideHull (convexHull pts) p) :=
  ⟨fun h => by rw [convexHull, if_pos h],
   fun hlen hgp => convexHull_big_correct pts hlen hgp⟩

theorem convex_hull_correct_witness :
    (convexHull [⟨0, 0⟩, ⟨2, 0⟩, ⟨1, 3⟩] = [⟨0, 0⟩, ⟨2, 0⟩, ⟨1, 3⟩]) ∧
    (convexHull (rectPts 0 1 0 1) ≠ [] ∧
      (∀ v ∈ convexHull (rectPts 0 1 0 1), v ∈ rectPts 0 1 0 1) ∧
      windsCCW (convexHull (rectPts 0 1 0 1)) ∧
      ∀ p ∈ rectPts 0 1 0 1, insideHull (convexHull (rectPts 0 1 0 1)) p) := by
  constructor
  · exact (convex_hull_correct _).1 (by simp)
  · refine (convex_hull_correct _).2 (by simp [rectPts]) ⟨?_, ?_⟩
    · norm_num [rectPts, List.pairwise_cons, Pt.mk.injEq]
    · intro a ha b hb c hc hab hac hbc
      simp only [rectPts, List.mem_cons, List.not_mem_nil, or_false] at ha hb hc
      rcases ha with rfl | rfl | rfl | rfl <;> rcases hb with rfl | rfl | rfl | rfl <;>
        rcases hc with rfl | rfl | rfl | rfl <;>
        first
          | exact absurd rfl hab
          | exact absurd rfl hac
          | exact absurd rfl hbc
          | (simp only [cross]; norm_num)

end Claims

end AsteroidSim
